import Mathlib

/-!
# rdcfg: a shallow embedding of `src/rdcfg.go`

Go strings are modelled as `List Char` (the operations used by the package,
`strings.NewReplacer(" ", "")`, `strings.HasPrefix`, `strings.Trim`,
`strings.Index` with a one-character needle and the regular expression
`\[.*\]\n|.+=.+\n`, act character by character on valid UTF-8 text).
Go maps are modelled as association lists read by first occurrence, and a
Go `error` by its message.
-/

namespace Rdcfg

/-! ## Strings -/

/-- Go `string`. -/
abbrev Str := List Char

/-- Go `error` built by `errors.New msg`, identified with its message. -/
abbrev Error := String

/-- The call `strings.HasPrefix(s, p)`. -/
def HasPrefix (s p : Str) : Bool := p.isPrefixOf s

/-- The call `strings.HasSuffix(s, p)`. -/
def HasSuffix (s p : Str) : Bool := p.isSuffixOf s

/-- The call `strings.TrimRight(s, cutset)`: trailing characters of the cutset removed. -/
def TrimRight (s cutset : Str) : Str := s.rdropWhile (fun c => decide (c ∈ cutset))

/-- The call `strings.Trim(s, cutset)`: leading and trailing characters of the cutset removed. -/
def Trim (s cutset : Str) : Str :=
  (s.dropWhile (fun c => decide (c ∈ cutset))).rdropWhile (fun c => decide (c ∈ cutset))

/-- The call `strings.Index(s, string(c))`: index of the first `c`, or `-1`. -/
def Index (s : Str) (c : Char) : Int :=
  if c ∈ s then (s.indexOf c : Int) else -1

/-- The replacer `strings.NewReplacer(" ", "").Replace`: every space removed. -/
def Replace (s : Str) : Str := s.filter (fun c => decide (c ≠ ' '))

/-! ## Regular expressions (leftmost-first backtracking, as Go's `regexp`) -/

/-- Syntax of the regular expressions needed for the line filter. -/
inductive Re where
  | lit : Char → Re
  | dot : Re
  | seq : Re → Re → Re
  | alt : Re → Re → Re
  | star : Re → Re


/-- One or more repetitions, `a+`. -/
def Re.plus (a : Re) : Re := Re.seq a (Re.star a)

/-- Greedy iteration of a matcher `m`: the remainders after zero or more rounds,
longest attempts first. The fuel bounds the number of rounds by the input length. -/
def starAux (m : Str → List Str) : Nat → Str → List Str
  | 0, s => [s]
  | n + 1, s =>
    ((m s).map (fun t => if t.length < s.length then starAux m n t else [])).flatten ++ [s]

/-- All ways `r` matches a prefix of `s`, as the list of remainders, in the
preference order of a backtracking matcher (Go: leftmost-first; `.` does not
match the newline). -/
def matchRe : Re → Str → List Str
  | Re.lit c, s =>
    match s with
    | [] => []
    | x :: t => if x = c then [t] else []
  | Re.dot, s =>
    match s with
    | [] => []
    | x :: t => if x = '\n' then [] else [t]
  | Re.seq a b, s => ((matchRe a s).map (matchRe b)).flatten
  | Re.alt a b, s => matchRe a s ++ matchRe b s
  | Re.star a, s => starAux (matchRe a) s.length s

/-- The expression `regexp.MustCompile("\\[.*\\]\n|.+=.+\\n")`. -/
def re : Re :=
  Re.alt
    (Re.seq (Re.lit '[') (Re.seq (Re.star Re.dot) (Re.seq (Re.lit ']') (Re.lit '\n'))))
    (Re.seq (Re.plus Re.dot) (Re.seq (Re.lit '=') (Re.seq (Re.plus Re.dot) (Re.lit '\n'))))

/-- Scan of `FindAllString`: at each position take the preferred match of `r`
if there is one and resume after it, otherwise move one character on. (An
empty match only moves on; `re` has none.) -/
def findAllAux (r : Re) : Nat → Str → List Str
  | 0, _ => []
  | n + 1, s =>
    match (matchRe r s).head? with
    | some t =>
      if t.length < s.length then
        s.take (s.length - t.length) :: findAllAux r n t
      else
        match s with
        | [] => []
        | _ :: s1 => findAllAux r n s1
    | none =>
      match s with
      | [] => []
      | _ :: s1 => findAllAux r n s1

/-- The call `r.FindAllString(s, -1)`: successive non-overlapping matches. -/
def FindAllString (r : Re) (s : Str) : List Str := findAllAux r (s.length + 1) s

/-! ## Maps -/

/-- Map read `m[k]` with the comma-ok form. -/
def mapGet {ν : Type} : List (Str × ν) → Str → Option ν
  | [], _ => none
  | (k1, v1) :: m, k => if k1 = k then some v1 else mapGet m k

/-- Map write `m[k] = v`. -/
def mapSet {ν : Type} : List (Str × ν) → Str → ν → List (Str × ν)
  | [], k, v => [(k, v)]
  | (k1, v1) :: m, k, v => if k1 = k then (k, v) :: m else (k1, v1) :: mapSet m k v

/-! ## The package -/

/-- The constant `RDCFG_DEFAULT_SECTION_NAME = " "`. -/
def RDCFG_DEFAULT_SECTION_NAME : Str := [' ']

/-- The struct `section`. -/
structure Section where
  name : Str
  m : List (Str × Str)
  deriving DecidableEq

/-- The struct `RDCFG`. -/
structure RDCFG where
  m : List (Str × Section)
  deriving DecidableEq

/-- The function `newSection`. -/
def newSection (name : Str) : Section := { name := name, m := [] }

/-- The method `section.get`. -/
def Section.get (s : Section) (key : Str) : Str × Option Error :=
  match mapGet s.m key with
  | some value => (value, none)
  | none => ([], some "could not find value by key")

/-- The method `section.set`: the section afterwards and the returned error. -/
def Section.set (s : Section) (key value : Str) : Section × Option Error :=
  match mapGet s.m key with
  | some _ => (s, some "key already exists")
  | none => ({ s with m := mapSet s.m key value }, none)

/-- The method `RDCFG.getSection`. -/
def RDCFG.getSection (cfg : RDCFG) (secname : Str) : Option Section × Option Error :=
  match mapGet cfg.m secname with
  | some sec => (some sec, none)
  | none => (none, some "specified section not found")

/-- The method `RDCFG.addSection`. -/
def RDCFG.addSection (cfg : RDCFG) (secname : Str) : RDCFG :=
  { m := mapSet cfg.m secname (newSection secname) }

/-- The method `RDCFG.Get`. -/
def RDCFG.Get (cfg : RDCFG) (sectionName key : Str) : Str × Option Error :=
  let sectionName := if sectionName = [] then RDCFG_DEFAULT_SECTION_NAME else sectionName
  match cfg.getSection sectionName with
  | (some sec, none) => sec.get key
  | (_, some err) => ([], err)
  | (none, none) => ([], none)

/-- The method `RDCFG.set`: the document afterwards (the section is updated
through its pointer) and the returned error. -/
def RDCFG.set (cfg : RDCFG) (sectionName key value : Str) : RDCFG × Option Error :=
  let sectionName := if sectionName = [] then RDCFG_DEFAULT_SECTION_NAME else sectionName
  match cfg.getSection sectionName with
  | (some sec, none) =>
    let r := sec.set key value
    ({ m := mapSet cfg.m sectionName r.1 }, r.2)
  | (_, some err) => (cfg, some err)
  | (none, none) => (cfg, none)

/-- State of the loop of `loadCfg` when it stops: the document, the variable
`nowSectionName` and the returned error. -/
structure LoadState where
  cfg : RDCFG
  nowSectionName : Str
  err : Option Error
  deriving DecidableEq

/-- The loop `for _, line := range allLines` of `loadCfg`. -/
def loadLines : RDCFG → Str → List Str → LoadState
  | cfg, nowSectionName, [] => ⟨cfg, nowSectionName, none⟩
  | cfg, nowSectionName, line :: rest =>
    if HasPrefix line ['#'] then loadLines cfg nowSectionName rest
    else
      let line := TrimRight line ['\n']
      if HasPrefix line ['['] && HasSuffix line [']'] then
        let tmp := Trim line ['[', ']']
        if tmp = [] then ⟨cfg, nowSectionName, some "section name is null"⟩
        else if nowSectionName ≠ tmp then loadLines (cfg.addSection tmp) tmp rest
        else ⟨cfg, nowSectionName, some "repeat section name"⟩
      else
        let pos := Index line '='
        if pos ≥ 0 then
          let k := line.take pos.toNat
          let v := line.drop (pos.toNat + 1)
          match cfg.set nowSectionName k v with
          | (cfg1, some err) => ⟨cfg1, nowSectionName, some err⟩
          | (cfg1, none) => loadLines cfg1 nowSectionName rest
        else loadLines cfg nowSectionName rest

/-- The method `RDCFG.loadCfg`, with the final loop state. -/
def loadRun (cfg : RDCFG) (filebuf : Str) : LoadState :=
  let news := Replace filebuf
  let allLines := FindAllString re news
  let nowSectionName := RDCFG_DEFAULT_SECTION_NAME
  loadLines (cfg.addSection nowSectionName) nowSectionName allLines

/-- The method `RDCFG.loadCfg`: the document afterwards and the returned error. -/
def RDCFG.loadCfg (cfg : RDCFG) (filebuf : Str) : RDCFG × Option Error :=
  ((loadRun cfg filebuf).cfg, (loadRun cfg filebuf).err)

/-- The function `NewRDCFG` as a function of the content read from the file
(the file-system failures of `os.Stat` and `os.Open` are outside the model). -/
def NewRDCFG (content : Str) : Option RDCFG × Option Error :=
  let cfg : RDCFG := { m := [] }
  if !HasSuffix content ['\n'] then
    (none, some "Config file does not end with a newline character.")
  else
    match cfg.loadCfg content with
    | (_, some err) => (none, some err)
    | (cfg1, none) => (some cfg1, none)

/-- The two accepted shapes of a line without its newline. -/
def LineShape (l : Str) : Prop :=
  (∃ mid, l = '[' :: (mid ++ [']'])) ∨ (∃ a b, a ≠ [] ∧ b ≠ [] ∧ l = a ++ '=' :: b)

/-- Decision procedure for `LineShape`. -/
def lineShape (l : Str) : Bool :=
  (HasPrefix l ['['] && HasSuffix l [']'] && decide (2 ≤ l.length))
    || decide ('=' ∈ l.tail.dropLast)

/-- What the scan extracts from one line `l` (given without its newline): the
suffix of `l` starting at the first position where the expression matches. -/
def scanLine : Str → List Str
  | [] => []
  | c :: l => if lineShape (c :: l) then [c :: l ++ ['\n']] else scanLine l

/-- A buffer made of whole lines: empty, or ending with the newline. -/
def EndsNL (p : Str) : Prop := p = [] ∨ ∃ p1, p = p1 ++ ['\n']

/-- The section name a header line contributes, following the first two tests
of the loop body of `loadCfg`; `none` for a line that is not treated as a header. -/
def headerOf (x : Str) : Option Str :=
  if HasPrefix x ['#'] then none
  else
    let line := TrimRight x ['\n']
    if HasPrefix line ['['] && HasSuffix line [']'] then some (Trim line ['[', ']'])
    else none

/-- The key and value an assignment line contributes, following the loop body
of `loadCfg`; `none` for a line that is not treated as an assignment. -/
def assignOf (x : Str) : Option (Str × Str) :=
  if HasPrefix x ['#'] then none
  else
    let line := TrimRight x ['\n']
    if HasPrefix line ['['] && HasSuffix line [']'] then none
    else
      let pos := Index line '='
      if pos ≥ 0 then some (line.take pos.toNat, line.drop (pos.toNat + 1)) else none

/-- The value stored under `key` in the store registered under `secname`. -/
def RDCFG.value? (cfg : RDCFG) (secname key : Str) : Option Str :=
  (mapGet cfg.m secname).bind (fun sec => mapGet sec.m key)

/-- A section name as a header line carries it: non-empty, without space or
newline, and with no bracket at either end. -/
def ValidName (n : Str) : Prop :=
  n ≠ [] ∧ ' ' ∉ n ∧ '\n' ∉ n ∧ HasPrefix n ['['] = false ∧ HasPrefix n [']'] = false
    ∧ HasSuffix n ['['] = false ∧ HasSuffix n [']'] = false

/-- A line `l` (given without its newline) that reads, once its spaces are
removed, as the assignment `k=v`: `k` is non-empty, has no `=` and does not
start with `#`, `v` is non-empty, and the line is not of the bracketed shape. -/
def AssignLine (l k v : Str) : Prop :=
  '\n' ∉ l ∧ Replace l = k ++ '=' :: v ∧ k ≠ [] ∧ '=' ∉ k ∧ HasPrefix k ['#'] = false
    ∧ v ≠ [] ∧ ¬ (HasPrefix k ['['] = true ∧ HasSuffix v [']'] = true)

/-- The buffer made of the lines `k=v`, one per pair, each ended by the newline. -/
def assignBuffer (ps : List (Str × Str)) : Str :=
  (ps.map (fun p => p.1 ++ '=' :: p.2 ++ ['\n'])).flatten

/-- The method `RDCFG.GetDefault`. -/
def RDCFG.GetDefault (cfg : RDCFG) (key : Str) : Str × Option Error := cfg.Get [] key

/-- Every store of the document is registered under its own name. -/
def NamesMatch (cfg : RDCFG) : Prop := ∀ p ∈ cfg.m, p.2.name = p.1

/-- No key and no value of the document holds a space or a newline, and no
value is empty. -/
def CleanDoc (cfg : RDCFG) : Prop :=
  ∀ p ∈ cfg.m, ∀ q ∈ p.2.m,
    ' ' ∉ q.1 ∧ '\n' ∉ q.1 ∧ ' ' ∉ q.2 ∧ '\n' ∉ q.2 ∧ q.2 ≠ []

/-- A call that changes a document: `addSection`, `set` or `loadCfg`. -/
inductive Call where
  | addSection : Str → Call
  | set : Str → Str → Str → Call
  | loadCfg : Str → Call

/-- The document after one call. -/
def Call.apply (cfg : RDCFG) : Call → RDCFG
  | Call.addSection secname => cfg.addSection secname
  | Call.set sectionName key value => (cfg.set sectionName key value).1
  | Call.loadCfg filebuf => (cfg.loadCfg filebuf).1

/-- The document after a sequence of calls, starting from the empty document
built by `NewRDCFG`. -/
def runCalls (cs : List Call) : RDCFG := cs.foldl Call.apply { m := [] }

/-- The digits of a numeral without its sign. -/
def stripSign (s : Str) : Str :=
  match s with
  | '+' :: t => t
  | '-' :: t => t
  | _ => s

/-- Value of a run of decimal digits, most significant first, accumulated as
`n*10 + digit`. -/
def digitsValue (ds : Str) : Nat :=
  ds.foldl (fun n c => n * 10 + (c.toNat - '0'.toNat)) 0

/-- Modelled from the spec: `strconv.Atoi` of the Go standard library, which
`GetInt` calls and whose source is not part of the repository. Base 10, an
optional sign `+` or `-` followed by one or more digits `0`..`9`; anything else
is the error "invalid syntax" with value 0; a value outside the `int` type of
`intSize` bits is the error "value out of range" with the nearest bound. -/
def Atoi (intSize : Nat) (s : Str) : Int × Option Error :=
  let ds := stripSign s
  if ds = [] ∨ ds.all Char.isDigit = false then (0, some "invalid syntax")
  else
    let v : Int := if s.head? = some '-' then -(digitsValue ds : Int) else (digitsValue ds : Int)
    if v < -(2 ^ (intSize - 1) : Int) then (-(2 ^ (intSize - 1) : Int), some "value out of range")
    else if v > (2 ^ (intSize - 1) : Int) - 1 then
      ((2 ^ (intSize - 1) : Int) - 1, some "value out of range")
    else (v, none)

/-- The method `RDCFG.GetInt`; `intSize` is the size in bits of the type `int`. -/
def RDCFG.GetInt (intSize : Nat) (cfg : RDCFG) (sectionName key : Str) : Int × Option Error :=
  match cfg.Get sectionName key with
  | (_, some err) => (0, some err)
  | (sv, none) =>
    match Atoi intSize sv with
    | (_, some err) => (0, some err)
    | (value, none) => (value, none)

/-- The string `s` is an optional sign followed by one or more decimal digits,
and `n` is the integer it denotes. -/
def IsDecimal (s : Str) (n : Int) : Prop :=
  ∃ ds : Str, ds ≠ [] ∧ (∀ c ∈ ds, c.isDigit = true) ∧
    (((s = ds ∨ s = '+' :: ds)
        ∧ n = (Nat.ofDigits 10 (ds.reverse.map (fun c => c.toNat - '0'.toNat)) : Nat))
      ∨ (s = '-' :: ds
        ∧ n = -((Nat.ofDigits 10 (ds.reverse.map (fun c => c.toNat - '0'.toNat)) : Nat) : Int)))

/-! ## The line filter: what the expression matches -/

theorem mem_matchRe_lit (c : Char) (s t : Str) : t ∈ matchRe (Re.lit c) s ↔ s = c :: t := by
  cases s with
  | nil => simp [matchRe]
  | cons x u =>
    by_cases h : x = c
    · simp [matchRe, h, eq_comm]
    · simp [matchRe, h]

theorem mem_matchRe_dot (s t : Str) :
    t ∈ matchRe Re.dot s ↔ ∃ x, x ≠ '\n' ∧ s = x :: t := by
  cases s with
  | nil => simp [matchRe]
  | cons x u =>
    by_cases h : x = '\n'
    · subst h
      simp only [matchRe, if_true, List.not_mem_nil, false_iff]
      rintro ⟨y, hy, hyt⟩
      simp only [List.cons.injEq] at hyt
      exact hy hyt.1.symm
    · simp only [matchRe, if_neg h, List.mem_singleton]
      constructor
      · rintro rfl; exact ⟨x, h, rfl⟩
      · rintro ⟨y, _, hyt⟩
        simp only [List.cons.injEq] at hyt
        exact hyt.2.symm

theorem mem_matchRe_seq (a b : Re) (s t : Str) :
    t ∈ matchRe (Re.seq a b) s ↔ ∃ u, u ∈ matchRe a s ∧ t ∈ matchRe b u := by
  simp [matchRe, List.mem_flatten]

theorem mem_matchRe_alt (a b : Re) (s t : Str) :
    t ∈ matchRe (Re.alt a b) s ↔ t ∈ matchRe a s ∨ t ∈ matchRe b s := by
  simp [matchRe]

theorem mem_starAux_dot (t : Str) : ∀ (n : Nat) (s : Str), s.length ≤ n →
    (t ∈ starAux (matchRe Re.dot) n s ↔ ∃ m, s = m ++ t ∧ '\n' ∉ m) := by
  intro n
  induction n with
  | zero =>
    intro s hs
    have : s = [] := List.eq_nil_of_length_eq_zero (Nat.le_zero.mp hs)
    subst this
    simp [starAux]
    constructor
    · intro h; exact ⟨[], by simp [h], by simp⟩
    · rintro ⟨m, hm, _⟩
      exact hm.2
  | succ n ih =>
    intro s hs
    simp only [starAux, List.mem_append, List.mem_flatten, List.mem_map, List.mem_singleton]
    constructor
    · rintro (⟨l, ⟨u, hu, rfl⟩, ht⟩ | rfl)
      · rw [mem_matchRe_dot] at hu
        obtain ⟨x, hx, rfl⟩ := hu
        simp at ht
        simp at hs
        obtain ⟨m, rfl, hm⟩ := (ih u hs).mp ht
        exact ⟨x :: m, by simp, by simp [hm, Ne.symm hx]⟩
      · exact ⟨[], by simp, by simp⟩
    · rintro ⟨m, rfl, hm⟩
      cases m with
      | nil => right; simp
      | cons x m =>
        left
        simp at hm
        refine ⟨_, ⟨m ++ t, ?_, rfl⟩, ?_⟩
        · rw [mem_matchRe_dot]; exact ⟨x, Ne.symm hm.1, by simp⟩
        · simp
          simp at hs
          exact (ih (m ++ t) (by simpa using hs)).mpr ⟨m, rfl, hm.2⟩

theorem mem_matchRe_star_dot (s t : Str) :
    t ∈ matchRe (Re.star Re.dot) s ↔ ∃ m, s = m ++ t ∧ '\n' ∉ m := by
  simp only [matchRe]
  exact mem_starAux_dot t s.length s le_rfl

theorem mem_matchRe_plus_dot (s t : Str) :
    t ∈ matchRe (Re.plus Re.dot) s ↔ ∃ m, m ≠ [] ∧ s = m ++ t ∧ '\n' ∉ m := by
  rw [Re.plus, mem_matchRe_seq]
  constructor
  · rintro ⟨u, hu, ht⟩
    rw [mem_matchRe_dot] at hu
    rw [mem_matchRe_star_dot] at ht
    obtain ⟨x, hx, rfl⟩ := hu
    obtain ⟨m, rfl, hm⟩ := ht
    exact ⟨x :: m, by simp, by simp, by simp [hm, Ne.symm hx]⟩
  · rintro ⟨m, hne, rfl, hm⟩
    cases m with
    | nil => exact absurd rfl hne
    | cons x m =>
      simp at hm
      refine ⟨m ++ t, ?_, ?_⟩
      · rw [mem_matchRe_dot]; exact ⟨x, Ne.symm hm.1, by simp⟩
      · rw [mem_matchRe_star_dot]; exact ⟨m, rfl, hm.2⟩

theorem HasPrefix_singleton (s : Str) (c : Char) :
    HasPrefix s [c] = true ↔ ∃ t, s = c :: t := by
  cases s with
  | nil => simp [HasPrefix]
  | cons x t =>
    simp only [HasPrefix, List.isPrefixOf, Bool.and_true, beq_iff_eq, List.cons.injEq,
      exists_eq_right']
    exact eq_comm

theorem HasSuffix_singleton (s : Str) (c : Char) :
    HasSuffix s [c] = true ↔ ∃ t, s = t ++ [c] := by
  unfold HasSuffix
  rw [List.isSuffixOf_iff_suffix]
  constructor
  · rintro ⟨t, ht⟩; exact ⟨t, ht.symm⟩
  · rintro ⟨t, ht⟩; exact ⟨t, ht.symm⟩

theorem mem_tail_dropLast (c : Char) (l : Str) :
    c ∈ l.tail.dropLast ↔ ∃ a b, a ≠ [] ∧ b ≠ [] ∧ l = a ++ c :: b := by
  constructor
  · intro h
    cases l with
    | nil => simp at h
    | cons x t =>
      simp only [List.tail_cons] at h
      rcases List.eq_nil_or_concat t with rfl | ⟨u, y, hty⟩
      · simp at h
      · rw [List.concat_eq_append] at hty
        subst hty
        simp only [List.dropLast_concat] at h
        obtain ⟨a, b, rfl⟩ := List.append_of_mem h
        exact ⟨x :: a, b ++ [y], by simp, by simp, by simp⟩
  · rintro ⟨a, b, ha, hb, rfl⟩
    cases a with
    | nil => exact absurd rfl ha
    | cons x a =>
      rcases List.eq_nil_or_concat b with rfl | ⟨u, y, hby⟩
      · exact absurd rfl hb
      · rw [List.concat_eq_append] at hby
        subst hby
        have : (x :: a ++ c :: (u ++ [y])).tail = (a ++ c :: u) ++ [y] := by simp
        rw [this, List.dropLast_concat]
        simp

theorem lineShape_iff (l : Str) : lineShape l = true ↔ LineShape l := by
  unfold lineShape LineShape
  rw [Bool.or_eq_true, Bool.and_eq_true, Bool.and_eq_true, decide_eq_true_iff,
    decide_eq_true_iff, HasPrefix_singleton, HasSuffix_singleton, mem_tail_dropLast]
  apply or_congr_left
  constructor
  · rintro ⟨⟨⟨t, rfl⟩, ⟨u, hu⟩⟩, hlen⟩
    rcases List.eq_nil_or_concat t with rfl | ⟨w, y, hty⟩
    · simp at hlen
    · rw [List.concat_eq_append] at hty
      subst hty
      refine ⟨w, ?_⟩
      have h1 : '[' :: (w ++ [y]) = ('[' :: w) ++ [y] := rfl
      rw [h1] at hu
      have := List.append_inj_right' hu rfl
      simp at this
      subst this
      rfl
  · rintro ⟨mid, rfl⟩
    exact ⟨⟨⟨_, rfl⟩, ⟨'[' :: mid, rfl⟩⟩, by simp⟩

theorem line_split_unique : ∀ (l1 l2 t1 t2 : Str), '\n' ∉ l1 → '\n' ∉ l2 →
    l1 ++ '\n' :: t1 = l2 ++ '\n' :: t2 → l1 = l2 ∧ t1 = t2 := by
  intro l1
  induction l1 with
  | nil =>
    intro l2 t1 t2 _ h2 h
    cases l2 with
    | nil => simpa using h
    | cons y l2 =>
      simp at h h2
      exact absurd h.1 h2.1
  | cons x l1 ih =>
    intro l2 t1 t2 h1 h2 h
    cases l2 with
    | nil =>
      simp at h h1
      exact absurd h.1.symm h1.1
    | cons y l2 =>
      simp at h h1 h2
      obtain ⟨rfl, h⟩ := h
      obtain ⟨rfl, rfl⟩ := ih l2 t1 t2 h1.2 h2.2 h
      exact ⟨rfl, rfl⟩

theorem mem_matchRe_re (s t : Str) :
    t ∈ matchRe re s ↔ ∃ l, s = l ++ '\n' :: t ∧ '\n' ∉ l ∧ LineShape l := by
  unfold re
  rw [mem_matchRe_alt]
  constructor
  · rintro (h | h)
    · rw [mem_matchRe_seq] at h
      obtain ⟨u1, h1, h⟩ := h
      rw [mem_matchRe_seq] at h
      obtain ⟨u2, h2, h⟩ := h
      rw [mem_matchRe_seq] at h
      obtain ⟨u3, h3, h4⟩ := h
      rw [mem_matchRe_lit] at h1 h3 h4
      rw [mem_matchRe_star_dot] at h2
      obtain ⟨m, hm, hnl⟩ := h2
      subst h1 hm h3 h4
      refine ⟨'[' :: (m ++ [']']), by simp, ?_, Or.inl ⟨m, rfl⟩⟩
      simp [hnl]
    · rw [mem_matchRe_seq] at h
      obtain ⟨u1, h1, h⟩ := h
      rw [mem_matchRe_seq] at h
      obtain ⟨u2, h2, h⟩ := h
      rw [mem_matchRe_seq] at h
      obtain ⟨u3, h3, h4⟩ := h
      rw [mem_matchRe_lit] at h2 h4
      rw [mem_matchRe_plus_dot] at h1 h3
      obtain ⟨a, ha, hsa, hnla⟩ := h1
      obtain ⟨b, hb, hsb, hnlb⟩ := h3
      subst hsa h2 hsb h4
      refine ⟨a ++ '=' :: b, by simp, ?_, Or.inr ⟨a, b, ha, hb, rfl⟩⟩
      simp [hnla, hnlb]
  · rintro ⟨l, rfl, hnl, (⟨mid, rfl⟩ | ⟨a, b, ha, hb, rfl⟩)⟩
    · left
      simp at hnl
      rw [mem_matchRe_seq]
      refine ⟨mid ++ ']' :: '\n' :: t, by rw [mem_matchRe_lit]; simp, ?_⟩
      rw [mem_matchRe_seq]
      refine ⟨']' :: '\n' :: t, by rw [mem_matchRe_star_dot]; exact ⟨mid, rfl, hnl⟩, ?_⟩
      rw [mem_matchRe_seq]
      exact ⟨'\n' :: t, by rw [mem_matchRe_lit], by rw [mem_matchRe_lit]⟩
    · right
      simp at hnl
      rw [mem_matchRe_seq]
      refine ⟨'=' :: b ++ '\n' :: t, by rw [mem_matchRe_plus_dot]; exact ⟨a, ha, by simp, hnl.1⟩, ?_⟩
      rw [mem_matchRe_seq]
      refine ⟨b ++ '\n' :: t, by rw [mem_matchRe_lit]; simp, ?_⟩
      rw [mem_matchRe_seq]
      exact ⟨'\n' :: t, by rw [mem_matchRe_plus_dot]; exact ⟨b, hb, rfl, hnl.2⟩,
        by rw [mem_matchRe_lit]⟩

theorem matchRe_re_line (l rest : Str) (hl : '\n' ∉ l) :
    (matchRe re (l ++ '\n' :: rest)).head? = if lineShape l then some rest else none := by
  have hall : ∀ t ∈ matchRe re (l ++ '\n' :: rest), t = rest ∧ LineShape l := by
    intro t ht
    rw [mem_matchRe_re] at ht
    obtain ⟨l2, h, hnl, hs⟩ := ht
    obtain ⟨rfl, rfl⟩ := line_split_unique l l2 rest t hl hnl h
    exact ⟨rfl, hs⟩
  by_cases hs : lineShape l = true
  · rw [if_pos hs]
    have hmem : rest ∈ matchRe re (l ++ '\n' :: rest) :=
      (mem_matchRe_re _ _).mpr ⟨l, rfl, hl, (lineShape_iff l).mp hs⟩
    cases hL : matchRe re (l ++ '\n' :: rest) with
    | nil => rw [hL] at hmem; simp at hmem
    | cons x xs =>
      have := (hall x (by rw [hL]; simp)).1
      simp [this]
  · rw [if_neg hs]
    cases hL : matchRe re (l ++ '\n' :: rest) with
    | nil => rfl
    | cons x xs =>
      exact absurd ((lineShape_iff l).mpr (hall x (by rw [hL]; simp)).2) hs

theorem matchRe_re_noNL (s : Str) (hs : '\n' ∉ s) : matchRe re s = [] := by
  rw [List.eq_nil_iff_forall_not_mem]
  intro t ht
  rw [mem_matchRe_re] at ht
  obtain ⟨l, rfl, _, _⟩ := ht
  simp at hs

theorem findAllAux_fuel (r : Re) : ∀ (n m : Nat) (s : Str), s.length ≤ n → s.length ≤ m →
    findAllAux r n s = findAllAux r m s := by
  intro n
  induction n with
  | zero =>
    intro m s hn _
    have : s = [] := List.eq_nil_of_length_eq_zero (Nat.le_zero.mp hn)
    subst this
    cases m with
    | zero => rfl
    | succ m =>
      simp only [findAllAux]
      cases (matchRe r []).head? with
      | none => rfl
      | some t => simp
  | succ n ih =>
    intro m s hn hm
    cases m with
    | zero =>
      have : s = [] := List.eq_nil_of_length_eq_zero (Nat.le_zero.mp hm)
      subst this
      simp only [findAllAux]
      cases (matchRe r []).head? with
      | none => rfl
      | some t => simp
    | succ m =>
      simp only [findAllAux]
      cases (matchRe r s).head? with
      | none =>
        cases s with
        | nil => rfl
        | cons c s1 =>
          simp only [List.length_cons, Nat.add_le_add_iff_right] at hn hm
          exact ih m s1 hn hm
      | some t =>
        simp only
        by_cases ht : t.length < s.length
        · rw [if_pos ht, if_pos ht, ih m t (by omega) (by omega)]
        · rw [if_neg ht, if_neg ht]
          cases s with
          | nil => rfl
          | cons c s1 =>
            simp only [List.length_cons, Nat.add_le_add_iff_right] at hn hm
            exact ih m s1 hn hm

theorem FindAllString_of_match (r : Re) (s t : Str) (h : (matchRe r s).head? = some t)
    (ht : t.length < s.length) :
    FindAllString r s = s.take (s.length - t.length) :: FindAllString r t := by
  unfold FindAllString
  have e : findAllAux r (s.length + 1) s
      = s.take (s.length - t.length) :: findAllAux r s.length t := by
    simp only [findAllAux, h, if_pos ht]
  rw [e, findAllAux_fuel r s.length (t.length + 1) t (by omega) (by omega)]

theorem FindAllString_of_nomatch (r : Re) (c : Char) (s : Str)
    (h : (matchRe r (c :: s)).head? = none) :
    FindAllString r (c :: s) = FindAllString r s := by
  unfold FindAllString
  have e : findAllAux r ((c :: s).length + 1) (c :: s) = findAllAux r (c :: s).length s := by
    simp only [findAllAux, h]
  rw [e]
  exact findAllAux_fuel r _ _ s (by simp) (by simp)

theorem FindAllString_nil : FindAllString re [] = [] := by
  unfold FindAllString
  simp [findAllAux, matchRe_re_noNL]

theorem FindAllString_line : ∀ (l rest : Str), '\n' ∉ l →
    FindAllString re (l ++ '\n' :: rest) = scanLine l ++ FindAllString re rest := by
  intro l
  induction l with
  | nil =>
    intro rest _
    have h := matchRe_re_line [] rest (by simp)
    have h0 : lineShape [] = false := by decide
    rw [h0] at h
    simpa [scanLine] using FindAllString_of_nomatch re '\n' rest h
  | cons c l ih =>
    intro rest hl
    have h := matchRe_re_line (c :: l) rest hl
    by_cases hs : lineShape (c :: l) = true
    · rw [if_pos hs] at h
      rw [FindAllString_of_match re _ rest h (by simp; omega), scanLine, if_pos hs]
      have : ((c :: l) ++ '\n' :: rest).length - rest.length = ((c :: l) ++ ['\n']).length := by
        simp; omega
      rw [this]
      have h2 : (c :: l) ++ '\n' :: rest = ((c :: l) ++ ['\n']) ++ rest := by simp
      rw [h2, List.take_left']
      · simp
      · rfl
    · rw [if_neg hs] at h
      have h1 := FindAllString_of_nomatch re c (l ++ '\n' :: rest) h
      simp only [List.cons_append] at h1 ⊢
      rw [h1, scanLine, if_neg hs]
      exact ih rest (fun hmem => hl (List.mem_cons_of_mem _ hmem))

theorem FindAllString_noNL : ∀ (s : Str), '\n' ∉ s → FindAllString re s = [] := by
  intro s
  induction s with
  | nil => intro _; exact FindAllString_nil
  | cons c s ih =>
    intro hs
    rw [FindAllString_of_nomatch re c s (by rw [matchRe_re_noNL _ hs]; rfl)]
    exact ih (fun hmem => hs (List.mem_cons_of_mem _ hmem))

theorem FindAllString_append_aux (q : Str) : ∀ (p l : Str), '\n' ∉ l →
    FindAllString re (l ++ p ++ '\n' :: q)
      = FindAllString re (l ++ p ++ ['\n']) ++ FindAllString re q := by
  intro p
  induction p with
  | nil =>
    intro l hl
    simp only [List.append_nil]
    rw [FindAllString_line l q hl, FindAllString_line l [] hl, FindAllString_nil]
    simp
  | cons c p ih =>
    intro l hl
    by_cases hc : c = '\n'
    · subst hc
      have e1 : l ++ '\n' :: p ++ '\n' :: q = l ++ '\n' :: ([] ++ p ++ '\n' :: q) := by simp
      have e2 : l ++ '\n' :: p ++ ['\n'] = l ++ '\n' :: ([] ++ p ++ ['\n']) := by simp
      rw [e1, e2, FindAllString_line l _ hl, FindAllString_line l _ hl, ih [] (by simp)]
      simp
    · have e1 : l ++ c :: p ++ '\n' :: q = (l ++ [c]) ++ p ++ '\n' :: q := by simp
      have e2 : l ++ c :: p ++ ['\n'] = (l ++ [c]) ++ p ++ ['\n'] := by simp
      rw [e1, e2]
      exact ih (l ++ [c]) (by simp [hl, Ne.symm hc])

theorem FindAllString_append (p q : Str) (hp : EndsNL p) :
    FindAllString re (p ++ q) = FindAllString re p ++ FindAllString re q := by
  rcases hp with rfl | ⟨p1, rfl⟩
  · simp [FindAllString_nil]
  · have := FindAllString_append_aux q p1 [] (by simp)
    simpa using this

/-! ## Maps -/

theorem mapGet_mapSet {ν : Type} (m : List (Str × ν)) (k : Str) (v : ν) (k2 : Str) :
    mapGet (mapSet m k v) k2 = if k2 = k then some v else mapGet m k2 := by
  induction m with
  | nil =>
    by_cases h : k2 = k
    · simp [mapSet, mapGet, h]
    · simp [mapSet, mapGet, h, Ne.symm h]
  | cons a m ih =>
    obtain ⟨k1, v1⟩ := a
    by_cases h1 : k1 = k
    · subst h1
      by_cases h : k2 = k1
      · simp [mapSet, mapGet, h]
      · simp [mapSet, mapGet, h, Ne.symm h]
    · by_cases h : k2 = k
      · subst h
        simp [mapSet, mapGet, h1, ih]
      · by_cases h3 : k1 = k2
        · simp [mapSet, mapGet, h1, h, h3]
        · simp [mapSet, mapGet, h1, h, h3, ih]

/-! ## Loop steps -/

theorem loadLines_step (cfg : RDCFG) (now x : Str) (rest : List Str) :
    loadLines cfg now (x :: rest) =
      match headerOf x with
      | some tmp =>
        if tmp = [] then ⟨cfg, now, some "section name is null"⟩
        else if now ≠ tmp then loadLines (cfg.addSection tmp) tmp rest
        else ⟨cfg, now, some "repeat section name"⟩
      | none =>
        match assignOf x with
        | some (k, v) =>
          match cfg.set now k v with
          | (cfg1, some err) => ⟨cfg1, now, some err⟩
          | (cfg1, none) => loadLines cfg1 now rest
        | none => loadLines cfg now rest := by
  rw [loadLines]
  unfold headerOf assignOf
  by_cases h1 : HasPrefix x ['#'] = true
  · simp [h1]
  · by_cases h2 : (HasPrefix (TrimRight x ['\n']) ['['] && HasSuffix (TrimRight x ['\n']) [']']) = true
    · simp only [h1, h2, if_true, if_false, Bool.false_eq_true]
    · by_cases h3 : Index (TrimRight x ['\n']) '=' ≥ 0
      · simp only [h1, h2, h3, if_true, if_false, Bool.false_eq_true]
      · simp only [h1, h2, h3, if_true, if_false, Bool.false_eq_true]

theorem loadLines_append (xs ys : List Str) : ∀ (cfg : RDCFG) (now : Str),
    loadLines cfg now (xs ++ ys) =
      match (loadLines cfg now xs).err with
      | none => loadLines (loadLines cfg now xs).cfg (loadLines cfg now xs).nowSectionName ys
      | some _ => loadLines cfg now xs := by
  induction xs with
  | nil => intro cfg now; simp [loadLines]
  | cons x xs ih =>
    intro cfg now
    rw [List.cons_append, loadLines_step, loadLines_step]
    cases headerOf x with
    | some tmp =>
      simp only
      by_cases h1 : tmp = []
      · simp [h1]
      · by_cases h2 : now ≠ tmp
        · simp only [if_neg h1, if_pos h2]
          exact ih _ _
        · simp [h1, h2]
    | none =>
      simp only
      cases assignOf x with
      | none => exact ih _ _
      | some kv =>
        obtain ⟨k, v⟩ := kv
        simp only
        rcases hset : cfg.set now k v with ⟨cfg1, _ | err⟩
        · simp only
          exact ih _ _
        · simp

/-! ## String operations on the extracted lines -/

theorem Replace_append (a b : Str) : Replace (a ++ b) = Replace a ++ Replace b := by
  simp [Replace]

theorem Replace_of_no_space (s : Str) (h : ' ' ∉ s) : Replace s = s := by
  unfold Replace
  rw [List.filter_eq_self]
  intro c hc
  simp only [decide_eq_true_eq]
  rintro rfl
  exact h hc

theorem Replace_idem (s : Str) : Replace (Replace s) = Replace s := by
  simp [Replace]

theorem Replace_newline : Replace ['\n'] = ['\n'] := by decide

theorem EndsNL_Replace (p : Str) (hp : EndsNL p) : EndsNL (Replace p) := by
  rcases hp with rfl | ⟨p1, rfl⟩
  · left; rfl
  · right; exact ⟨Replace p1, by rw [Replace_append, Replace_newline]⟩

theorem EndsNL_append (p q : Str) (hp : EndsNL p) (hq : EndsNL q) : EndsNL (p ++ q) := by
  rcases hq with rfl | ⟨q1, rfl⟩
  · simpa using hp
  · right; exact ⟨p ++ q1, by simp⟩

theorem EndsNL_line (l : Str) : EndsNL (l ++ ['\n']) := Or.inr ⟨l, rfl⟩

theorem not_mem_Replace (c : Char) (s : Str) (h : c ∉ s) : c ∉ Replace s := by
  unfold Replace
  intro hc
  exact h (List.mem_filter.mp hc).1

theorem TrimRight_line (l : Str) (h : ∀ t, l ≠ t ++ ['\n']) :
    TrimRight (l ++ ['\n']) ['\n'] = l := by
  unfold TrimRight
  rw [List.rdropWhile_concat_pos _ _ _ (by simp)]
  rw [List.rdropWhile_eq_self_iff]
  intro hl
  simp only [List.mem_singleton, decide_eq_true_eq]
  intro hlast
  apply h l.dropLast
  conv_lhs => rw [← List.dropLast_append_getLast hl]
  rw [hlast]

theorem Index_first (k v : Str) (c : Char) (hk : c ∉ k) :
    Index (k ++ c :: v) c = (k.length : Int) := by
  unfold Index
  rw [if_pos (by simp), List.indexOf_append_of_not_mem hk, List.indexOf_cons_self]
  simp

theorem Index_absent (s : Str) (c : Char) (h : c ∉ s) : Index s c = -1 := by
  unfold Index
  rw [if_neg h]

theorem not_header_shape (k v : Str)
    (hb : ¬ (HasPrefix k ['['] = true ∧ HasSuffix v [']'] = true)) (hk : k ≠ []) (hv : v ≠ []) :
    (HasPrefix (k ++ '=' :: v) ['['] && HasSuffix (k ++ '=' :: v) [']']) = false := by
  rw [Bool.and_eq_false_iff]
  by_cases h1 : HasPrefix k ['['] = true
  · right
    have h2 : HasSuffix v [']'] ≠ true := fun h2 => hb ⟨h1, h2⟩
    rw [Bool.eq_false_iff]
    intro h3
    apply h2
    rw [HasSuffix_singleton] at h3 ⊢
    obtain ⟨t, ht⟩ := h3
    rcases List.eq_nil_or_concat v with rfl | ⟨u, y, hvy⟩
    · exact absurd rfl hv
    · rw [List.concat_eq_append] at hvy
      subst hvy
      have e : k ++ '=' :: (u ++ [y]) = (k ++ '=' :: u) ++ [y] := by simp
      rw [e] at ht
      have := List.append_inj_right' ht rfl
      simp only [List.cons.injEq, and_true] at this
      subst this
      exact ⟨u, rfl⟩
  · left
    rw [Bool.eq_false_iff]
    intro h3
    apply h1
    rw [HasPrefix_singleton] at h3 ⊢
    obtain ⟨t, ht⟩ := h3
    cases k with
    | nil => exact absurd rfl hk
    | cons x k =>
      simp only [List.cons_append, List.cons.injEq] at ht
      exact ⟨k, by rw [ht.1]⟩

theorem HasPrefix_append (k rest : Str) (c : Char) (hk : k ≠ []) :
    HasPrefix (k ++ rest) [c] = HasPrefix k [c] := by
  cases k with
  | nil => exact absurd rfl hk
  | cons x k => simp [HasPrefix, List.isPrefixOf]

/-- An assignment line: what the loop body extracts from `k=v` followed by the newline. -/
theorem line_assign (k v : Str) (hk : k ≠ []) (hkeq : '=' ∉ k)
    (hkc : HasPrefix k ['#'] = false) (hv : v ≠ []) (hvnl : '\n' ∉ v)
    (hb : ¬ (HasPrefix k ['['] = true ∧ HasSuffix v [']'] = true)) :
    headerOf (k ++ '=' :: v ++ ['\n']) = none
      ∧ assignOf (k ++ '=' :: v ++ ['\n']) = some (k, v) := by
  have htrim : TrimRight (k ++ '=' :: v ++ ['\n']) ['\n'] = k ++ '=' :: v := by
    apply TrimRight_line
    intro t ht
    rcases List.eq_nil_or_concat v with rfl | ⟨u, y, hvy⟩
    · exact absurd rfl hv
    · rw [List.concat_eq_append] at hvy
      subst hvy
      have e : k ++ '=' :: (u ++ [y]) = (k ++ '=' :: u) ++ [y] := by simp
      rw [e] at ht
      have := List.append_inj_right' ht rfl
      simp only [List.cons.injEq, and_true] at this
      subst this
      simp at hvnl
  have hpre : HasPrefix (k ++ '=' :: v ++ ['\n']) ['#'] = false := by
    rw [List.append_assoc, HasPrefix_append _ _ _ hk, hkc]
  have hsh := not_header_shape k v hb hk hv
  have hidx := Index_first k v '=' hkeq
  unfold headerOf assignOf
  simp only [hpre, htrim, hsh, hidx, Bool.false_eq_true, if_false]
  simp

theorem dropWhile_append_all {p : Char → Bool} : ∀ (a l : Str), (∀ c ∈ a, p c = true) →
    (a ++ l).dropWhile p = l.dropWhile p := by
  intro a
  induction a with
  | nil => intro l _; rfl
  | cons x a ih =>
    intro l h
    rw [List.cons_append, List.dropWhile_cons, if_pos (h x (by simp))]
    exact ih l (fun c hc => h c (List.mem_cons_of_mem _ hc))

theorem rdropWhile_append_all {p : Char → Bool} (l b : Str) (h : ∀ c ∈ b, p c = true) :
    (l ++ b).rdropWhile p = l.rdropWhile p := by
  unfold List.rdropWhile
  rw [List.reverse_append, dropWhile_append_all]
  intro c hc
  exact h c (List.mem_reverse.mp hc)

/-- Trimming a name wrapped in brackets gives the name back. -/
theorem Trim_wrapped (a n b : Str) (hn0 : n ≠ []) (ha : ∀ c ∈ a, c = '[' ∨ c = ']')
    (hb : ∀ c ∈ b, c = '[' ∨ c = ']')
    (h1 : HasPrefix n ['['] = false) (h2 : HasPrefix n [']'] = false)
    (h3 : HasSuffix n ['['] = false) (h4 : HasSuffix n [']'] = false) :
    Trim (a ++ n ++ b) ['[', ']'] = n := by
  unfold Trim
  rw [List.append_assoc, dropWhile_append_all a _ (by intro c hc; simpa using ha c hc)]
  have hd : (n ++ b).dropWhile (fun c => decide (c ∈ ['[', ']'])) = n ++ b := by
    cases n with
    | nil => exact absurd rfl hn0
    | cons x n =>
      rw [List.cons_append, List.dropWhile_cons, if_neg]
      simp only [List.mem_cons, List.mem_singleton, List.not_mem_nil, or_false,
        decide_eq_true_eq]
      rintro (rfl | rfl)
      · simp [HasPrefix] at h1
      · simp [HasPrefix] at h2
  rw [hd, rdropWhile_append_all n b (by intro c hc; simpa using hb c hc),
    List.rdropWhile_eq_self_iff]
  intro hn
  simp only [List.mem_cons, List.mem_singleton, List.not_mem_nil, or_false, decide_eq_true_eq]
  have hlast : n = n.dropLast ++ [n.getLast hn] := (List.dropLast_append_getLast hn).symm
  rintro (h | h)
  · have : HasSuffix n ['['] = true := (HasSuffix_singleton n '[').mpr ⟨n.dropLast, by rw [← h]; exact hlast⟩
    rw [h3] at this
    exact Bool.noConfusion this
  · have : HasSuffix n [']'] = true := (HasSuffix_singleton n ']').mpr ⟨n.dropLast, by rw [← h]; exact hlast⟩
    rw [h4] at this
    exact Bool.noConfusion this

/-- A header line: what the loop body extracts from `[n]` followed by the newline. -/
theorem line_header (n : Str) (hn : ValidName n) :
    headerOf ('[' :: n ++ [']'] ++ ['\n']) = some n := by
  obtain ⟨hn0, _, _, h1, h2, h3, h4⟩ := hn
  have htrim : TrimRight ('[' :: n ++ [']'] ++ ['\n']) ['\n'] = '[' :: n ++ [']'] := by
    apply TrimRight_line
    intro t ht
    have e : '[' :: n ++ [']'] = ('[' :: n) ++ [']'] := rfl
    rw [e] at ht
    have := List.append_inj_right' ht rfl
    simp at this
  have hT := Trim_wrapped ['['] n [']'] hn0 (by simp) (by simp) h1 h2 h3 h4
  have hp : HasPrefix ('[' :: n ++ [']']) ['['] = true :=
    (HasPrefix_singleton _ _).mpr ⟨n ++ [']'], rfl⟩
  have hs : HasSuffix ('[' :: n ++ [']']) [']'] = true :=
    (HasSuffix_singleton _ _).mpr ⟨'[' :: n, rfl⟩
  have hc : HasPrefix ('[' :: n ++ [']'] ++ ['\n']) ['#'] = false := by
    simp [HasPrefix, List.isPrefixOf]
  unfold headerOf
  simp only [hc, htrim, hp, hs, Bool.false_eq_true, if_false, Bool.and_self, if_true]
  exact congrArg some hT

theorem scanLine_of_shape (l : Str) (h : LineShape l) : scanLine l = [l ++ ['\n']] := by
  cases l with
  | nil =>
    have : lineShape [] = true := (lineShape_iff []).mpr h
    exact absurd this (by decide)
  | cons c l =>
    rw [scanLine, if_pos ((lineShape_iff _).mpr h)]

theorem FindAllString_assign (k v rest : Str) (hk : k ≠ []) (hv : v ≠ [])
    (hknl : '\n' ∉ k) (hvnl : '\n' ∉ v) :
    FindAllString re (k ++ '=' :: v ++ ['\n'] ++ rest)
      = (k ++ '=' :: v ++ ['\n']) :: FindAllString re rest := by
  have e : k ++ '=' :: v ++ ['\n'] ++ rest = (k ++ '=' :: v) ++ '\n' :: rest := by simp
  rw [e, FindAllString_line _ _ (by simp [hknl, hvnl]),
    scanLine_of_shape _ (Or.inr ⟨k, v, hk, hv, rfl⟩)]
  simp

theorem FindAllString_header (mid rest : Str) (hnl : '\n' ∉ mid) :
    FindAllString re ('[' :: mid ++ [']'] ++ ['\n'] ++ rest)
      = ('[' :: mid ++ [']'] ++ ['\n']) :: FindAllString re rest := by
  have e : '[' :: mid ++ [']'] ++ ['\n'] ++ rest = ('[' :: (mid ++ [']'])) ++ '\n' :: rest := by
    simp
  rw [e, FindAllString_line _ _ (by simp [hnl]), scanLine_of_shape _ (Or.inl ⟨mid, rfl⟩)]
  simp

/-! ## Loading a buffer made of two parts -/

theorem loadLines_append_ok (xs ys : List Str) (cfg : RDCFG) (now : Str)
    (h : (loadLines cfg now xs).err = none) :
    loadLines cfg now (xs ++ ys)
      = loadLines (loadLines cfg now xs).cfg (loadLines cfg now xs).nowSectionName ys := by
  rw [loadLines_append, h]

theorem loadLines_append_err (xs ys : List Str) (cfg : RDCFG) (now : Str) (e : Error)
    (h : (loadLines cfg now xs).err = some e) :
    loadLines cfg now (xs ++ ys) = loadLines cfg now xs := by
  rw [loadLines_append, h]

theorem loadRun_append_ok (cfg : RDCFG) (p q : Str) (hp : EndsNL p)
    (h : (loadRun cfg p).err = none) :
    loadRun cfg (p ++ q) = loadLines (loadRun cfg p).cfg (loadRun cfg p).nowSectionName
      (FindAllString re (Replace q)) := by
  unfold loadRun at h ⊢
  simp only at h ⊢
  rw [Replace_append, FindAllString_append _ _ (EndsNL_Replace p hp),
    loadLines_append_ok _ _ _ _ h]

theorem loadRun_append_err (cfg : RDCFG) (p q : Str) (hp : EndsNL p) (e : Error)
    (h : (loadRun cfg p).err = some e) : loadRun cfg (p ++ q) = loadRun cfg p := by
  unfold loadRun at h ⊢
  simp only at h ⊢
  rw [Replace_append, FindAllString_append _ _ (EndsNL_Replace p hp),
    loadLines_append_err _ _ _ _ e h]

theorem loadRun_prefix_ok (cfg : RDCFG) (p q : Str) (hp : EndsNL p)
    (h : (loadRun cfg (p ++ q)).err = none) : (loadRun cfg p).err = none := by
  cases he : (loadRun cfg p).err with
  | none => rfl
  | some e =>
    rw [loadRun_append_err cfg p q hp e he, he] at h
    exact absurd h (by simp)

/-! ## Stores: `set`, `addSection`, `Get` -/

theorem value?_addSection (cfg : RDCFG) (n s k : Str) :
    (cfg.addSection n).value? s k = if s = n then none else cfg.value? s k := by
  unfold RDCFG.addSection RDCFG.value?
  simp only [mapGet_mapSet]
  by_cases h : s = n
  · simp [h, newSection, mapGet]
  · simp [h]

theorem mapGet_addSection (cfg : RDCFG) (n s : Str) :
    mapGet (cfg.addSection n).m s = if s = n then some (newSection n) else mapGet cfg.m s := by
  unfold RDCFG.addSection
  simp only [mapGet_mapSet]

/-- What `RDCFG.set` does, by cases on the store and the key. -/
theorem set_cases (cfg : RDCFG) (s k v : Str) (hs : s ≠ []) :
    (mapGet cfg.m s = none ∧ cfg.set s k v = (cfg, some "specified section not found"))
    ∨ (∃ sec w, mapGet cfg.m s = some sec ∧ mapGet sec.m k = some w
        ∧ cfg.set s k v = ({ m := mapSet cfg.m s sec }, some "key already exists"))
    ∨ (∃ sec, mapGet cfg.m s = some sec ∧ mapGet sec.m k = none
        ∧ cfg.set s k v = ({ m := mapSet cfg.m s { sec with m := mapSet sec.m k v } }, none)) := by
  unfold RDCFG.set RDCFG.getSection Section.set
  simp only [if_neg hs]
  cases h1 : mapGet cfg.m s with
  | none => left; simp
  | some sec =>
    right
    cases h2 : mapGet sec.m k with
    | none => right; exact ⟨sec, rfl, h2, by simp [h2]⟩
    | some w => left; exact ⟨sec, w, rfl, h2, by simp [h2]⟩

/-- A value already stored survives `RDCFG.set`, whatever it is called with. -/
theorem set_keeps (cfg : RDCFG) (s k v s2 k2 w : Str) (hs : s ≠ [])
    (h : cfg.value? s2 k2 = some w) : (cfg.set s k v).1.value? s2 k2 = some w := by
  rcases set_cases cfg s k v hs with ⟨_, e⟩ | ⟨sec, w1, h1, h2, e⟩ | ⟨sec, h1, h2, e⟩
  · rw [e]; exact h
  · rw [e]
    unfold RDCFG.value? at h ⊢
    simp only [mapGet_mapSet]
    by_cases h3 : s2 = s
    · subst h3; rw [if_pos rfl]; rw [h1] at h; exact h
    · simpa [h3] using h
  · rw [e]
    unfold RDCFG.value? at h ⊢
    simp only [mapGet_mapSet]
    by_cases h3 : s2 = s
    · subst h3
      rw [h1] at h
      simp only [Option.some_bind] at h
      simp only [if_true, Option.some_bind, mapGet_mapSet]
      by_cases h4 : k2 = k
      · subst h4; rw [h2] at h; exact absurd h (by simp)
      · simpa [h4] using h
    · simpa [h3] using h

/-- A successful `RDCFG.set` stores the value under the key. -/
theorem set_ok_value (cfg : RDCFG) (s k v : Str) (hs : s ≠ []) (cfg1 : RDCFG)
    (h : cfg.set s k v = (cfg1, none)) : cfg1.value? s k = some v := by
  rcases set_cases cfg s k v hs with ⟨_, e⟩ | ⟨sec, w1, h1, h2, e⟩ | ⟨sec, h1, h2, e⟩
  · rw [e] at h; simp at h
  · rw [e] at h; simp at h
  · rw [e] at h
    simp only [Prod.mk.injEq, and_true] at h
    subst h
    simp [RDCFG.value?, mapGet_mapSet]

/-- Setting a key that is present fails and keeps its value. -/
theorem set_present (cfg : RDCFG) (s k v w : Str) (hs : s ≠ [])
    (h : cfg.value? s k = some w) :
    (cfg.set s k v).2 = some "key already exists" ∧ (cfg.set s k v).1.value? s k = some w := by
  refine ⟨?_, set_keeps cfg s k v s k w hs h⟩
  rcases set_cases cfg s k v hs with ⟨h1, _⟩ | ⟨sec, w1, h1, h2, e⟩ | ⟨sec, h1, h2, e⟩
  · simp [RDCFG.value?, h1] at h
  · rw [e]
  · simp [RDCFG.value?, h1, h2] at h

/-- Setting an absent key of an existing store succeeds and touches no other key. -/
theorem set_absent (cfg : RDCFG) (s k v : Str) (hs : s ≠ []) (sec : Section)
    (h1 : mapGet cfg.m s = some sec) (h2 : cfg.value? s k = none) :
    (cfg.set s k v).2 = none ∧ (∃ sec1, mapGet (cfg.set s k v).1.m s = some sec1)
      ∧ ∀ k2, k2 ≠ k → (cfg.set s k v).1.value? s k2 = cfg.value? s k2 := by
  have h3 : mapGet sec.m k = none := by simpa [RDCFG.value?, h1] using h2
  rcases set_cases cfg s k v hs with ⟨h4, _⟩ | ⟨sec1, w1, h4, h5, e⟩ | ⟨sec1, h4, h5, e⟩
  · rw [h1] at h4; exact absurd h4 (by simp)
  · rw [h1] at h4
    simp only [Option.some.injEq] at h4
    subst h4
    rw [h3] at h5
    exact absurd h5 (by simp)
  · rw [h1] at h4
    simp only [Option.some.injEq] at h4
    subst h4
    rw [e]
    refine ⟨rfl, ⟨{ sec with m := mapSet sec.m k v }, by simp [mapGet_mapSet]⟩, ?_⟩
    intro k2 hk2
    simp [RDCFG.value?, mapGet_mapSet, h1, hk2]

theorem Get_of_value (cfg : RDCFG) (s k v : Str) (hs : s ≠ [])
    (h : cfg.value? s k = some v) : cfg.Get s k = (v, none) := by
  unfold RDCFG.value? at h
  unfold RDCFG.Get RDCFG.getSection Section.get
  simp only [if_neg hs]
  cases h1 : mapGet cfg.m s with
  | none => simp [h1] at h
  | some sec =>
    simp only [h1, Option.some_bind] at h
    simp [h]

theorem value_of_Get (cfg : RDCFG) (s k v : Str) (hs : s ≠ [])
    (h : cfg.Get s k = (v, none)) : cfg.value? s k = some v := by
  unfold RDCFG.value?
  unfold RDCFG.Get RDCFG.getSection Section.get at h
  simp only [if_neg hs] at h
  cases h1 : mapGet cfg.m s with
  | none => simp [h1] at h
  | some sec =>
    simp only [h1, Option.some_bind] at h ⊢
    cases h2 : mapGet sec.m k with
    | none => simp [h2] at h
    | some w => simp [h2] at h; rw [h]

/-! ## Invariants of the loop -/

theorem loadLines_now_ne_nil (xs : List Str) : ∀ (cfg : RDCFG) (now : Str), now ≠ [] →
    (loadLines cfg now xs).nowSectionName ≠ [] := by
  induction xs with
  | nil => intro cfg now h; simpa [loadLines] using h
  | cons x xs ih =>
    intro cfg now h
    rw [loadLines_step]
    cases headerOf x with
    | some tmp =>
      simp only
      by_cases h1 : tmp = []
      · simpa [h1] using h
      · by_cases h2 : now ≠ tmp
        · simp only [if_neg h1, if_pos h2]
          exact ih _ _ h1
        · simpa [h1, h2] using h
    | none =>
      simp only
      cases assignOf x with
      | none => exact ih _ _ h
      | some kv =>
        obtain ⟨k, v⟩ := kv
        simp only
        rcases hset : cfg.set now k v with ⟨cfg1, _ | err⟩
        · exact ih _ _ h
        · simpa using h

theorem loadRun_now_ne_nil (cfg : RDCFG) (buf : Str) : (loadRun cfg buf).nowSectionName ≠ [] := by
  unfold loadRun
  exact loadLines_now_ne_nil _ _ _ (by decide)

/-- Lines without a header leave the current section and every stored value in place. -/
theorem loadLines_noHeader (xs : List Str) : ∀ (cfg : RDCFG) (now : Str), now ≠ [] →
    (∀ x ∈ xs, headerOf x = none) →
    (loadLines cfg now xs).nowSectionName = now
      ∧ ∀ s k v, cfg.value? s k = some v → (loadLines cfg now xs).cfg.value? s k = some v := by
  induction xs with
  | nil => intro cfg now _ _; simp [loadLines]
  | cons x xs ih =>
    intro cfg now hnow hx
    rw [loadLines_step, hx x (by simp)]
    have hxs : ∀ y ∈ xs, headerOf y = none := fun y hy => hx y (List.mem_cons_of_mem _ hy)
    simp only
    cases assignOf x with
    | none => exact ih _ _ hnow hxs
    | some kv =>
      obtain ⟨k, v⟩ := kv
      simp only
      rcases hset : cfg.set now k v with ⟨cfg1, _ | err⟩
      · simp only
        have hk := set_keeps cfg now k v
        rw [hset] at hk
        obtain ⟨i1, i2⟩ := ih cfg1 now hnow hxs
        exact ⟨i1, fun s k2 w hw => i2 s k2 w (hk s k2 w hnow hw)⟩
      · simp only [true_and]
        have hk := set_keeps cfg now k v
        rw [hset] at hk
        exact fun s k2 w hw => hk s k2 w hnow hw

/-! ## Steps of the loop on recognised lines -/

theorem loadLines_header_new (cfg : RDCFG) (now x n : Str) (rest : List Str)
    (hx : headerOf x = some n) (hn : n ≠ []) (hne : now ≠ n) :
    loadLines cfg now (x :: rest) = loadLines (cfg.addSection n) n rest := by
  rw [loadLines_step, hx]
  simp only [if_neg hn, if_pos hne]

theorem loadLines_header_repeat (cfg : RDCFG) (x n : Str) (rest : List Str)
    (hx : headerOf x = some n) (hn : n ≠ []) :
    loadLines cfg n (x :: rest) = ⟨cfg, n, some "repeat section name"⟩ := by
  rw [loadLines_step, hx]
  simp [hn]

theorem loadLines_assign_ok (cfg cfg1 : RDCFG) (now x k v : Str) (rest : List Str)
    (hx : headerOf x = none) (ha : assignOf x = some (k, v))
    (hs : cfg.set now k v = (cfg1, none)) :
    loadLines cfg now (x :: rest) = loadLines cfg1 now rest := by
  rw [loadLines_step, hx]
  simp only [ha, hs]

theorem loadLines_assign_err (cfg cfg1 : RDCFG) (now x k v : Str) (rest : List Str) (e : Error)
    (hx : headerOf x = none) (ha : assignOf x = some (k, v))
    (hs : cfg.set now k v = (cfg1, some e)) :
    loadLines cfg now (x :: rest) = ⟨cfg1, now, some e⟩ := by
  rw [loadLines_step, hx]
  simp only [ha, hs]

theorem AssignLine.noNL {l k v : Str} (h : AssignLine l k v) : '\n' ∉ k ∧ '\n' ∉ v := by
  have h1 := not_mem_Replace '\n' l h.1
  rw [h.2.1] at h1
  simp only [List.mem_append, List.mem_cons, not_or] at h1
  exact ⟨h1.1, h1.2.2⟩

theorem AssignLine.parse {l k v : Str} (h : AssignLine l k v) :
    headerOf (k ++ '=' :: v ++ ['\n']) = none
      ∧ assignOf (k ++ '=' :: v ++ ['\n']) = some (k, v) :=
  line_assign k v h.2.2.1 h.2.2.2.1 h.2.2.2.2.1 h.2.2.2.2.2.1 h.noNL.2 h.2.2.2.2.2.2

theorem AssignLine.assign_lines {l k v : Str} (h : AssignLine l k v) (q : Str) :
    FindAllString re (Replace (l ++ ['\n'] ++ q))
      = (k ++ '=' :: v ++ ['\n']) :: FindAllString re (Replace q) := by
  rw [Replace_append, Replace_append, Replace_newline, h.2.1]
  exact FindAllString_assign k v _ h.2.2.1 h.2.2.2.2.2.1 h.noNL.1 h.noNL.2

theorem ValidName.header_lines {n : Str} (h : ValidName n) (q : Str) :
    FindAllString re (Replace ('[' :: n ++ [']'] ++ ['\n'] ++ q))
      = ('[' :: n ++ [']'] ++ ['\n']) :: FindAllString re (Replace q) := by
  have e : Replace ('[' :: n ++ [']'] ++ ['\n']) = '[' :: n ++ [']'] ++ ['\n'] := by
    apply Replace_of_no_space
    simp [h.2.1]
  rw [Replace_append, e]
  exact FindAllString_header n _ h.2.2.1

/-- After a header line `[n]` has been loaded without error, `n` is the current section. -/
theorem loadRun_header_now (cfg : RDCFG) (p n : Str) (hp : EndsNL p) (hn : ValidName n)
    (hok : (loadRun cfg (p ++ ('[' :: n ++ [']'] ++ ['\n']))).err = none) :
    (loadRun cfg (p ++ ('[' :: n ++ [']'] ++ ['\n']))).nowSectionName = n := by
  have hokp := loadRun_prefix_ok cfg p _ hp hok
  rw [loadRun_append_ok cfg p _ hp hokp] at hok ⊢
  have e := hn.header_lines []
  rw [List.append_nil] at e
  rw [e] at hok ⊢
  have e2 : FindAllString re (Replace []) = [] := FindAllString_nil
  rw [e2] at hok ⊢
  by_cases hne : (loadRun cfg p).nowSectionName = n
  · rw [hne, loadLines_header_repeat _ _ _ _ (line_header n hn) hn.1] at hok
    exact absurd hok (by simp)
  · rw [loadLines_header_new _ _ _ _ _ (line_header n hn) hn.1 hne]
    simp [loadLines]

/-- After an assignment line `k=v` has been loaded without error, the current
section maps `k` to `v`. -/
theorem loadRun_assign_value (cfg : RDCFG) (p l k v : Str) (hp : EndsNL p)
    (hl : AssignLine l k v) (hok : (loadRun cfg (p ++ (l ++ ['\n']))).err = none) :
    (loadRun cfg (p ++ (l ++ ['\n']))).cfg.value?
      (loadRun cfg (p ++ (l ++ ['\n']))).nowSectionName k = some v := by
  have hokp := loadRun_prefix_ok cfg p _ hp hok
  rw [loadRun_append_ok cfg p _ hp hokp] at hok ⊢
  have e := hl.assign_lines []
  rw [List.append_nil] at e
  have e2 : FindAllString re (Replace []) = [] := FindAllString_nil
  rw [e, e2] at hok ⊢
  have hnow := loadRun_now_ne_nil cfg p
  rcases hset : (loadRun cfg p).cfg.set (loadRun cfg p).nowSectionName k v with ⟨cfg1, _ | err⟩
  · rw [loadLines_assign_ok _ _ _ _ _ _ _ hl.parse.1 hl.parse.2 hset]
    simp only [loadLines]
    exact set_ok_value _ _ _ _ hnow _ hset
  · rw [loadLines_assign_err _ _ _ _ _ _ _ _ hl.parse.1 hl.parse.2 hset] at hok
    exact absurd hok (by simp)

/-- Loading further lines that hold no header keeps the current section and the
stored values. -/
theorem loadRun_noHeader (cfg : RDCFG) (a m : Str) (ha : EndsNL a)
    (hok : (loadRun cfg a).err = none)
    (hm : ∀ x ∈ FindAllString re (Replace m), headerOf x = none) :
    (loadRun cfg (a ++ m)).nowSectionName = (loadRun cfg a).nowSectionName
      ∧ ∀ s k v, (loadRun cfg a).cfg.value? s k = some v →
          (loadRun cfg (a ++ m)).cfg.value? s k = some v := by
  rw [loadRun_append_ok cfg a m ha hok]
  exact loadLines_noHeader _ _ _ (loadRun_now_ne_nil cfg a) hm

/-! ## Runs of assignment lines -/

theorem Get_nil (cfg : RDCFG) (k : Str) :
    cfg.Get [] k = cfg.Get RDCFG_DEFAULT_SECTION_NAME k := by
  simp [RDCFG.Get, RDCFG_DEFAULT_SECTION_NAME]

theorem lines_assignBuffer (ps : List (Str × Str))
    (h : ∀ p ∈ ps, AssignLine (p.1 ++ '=' :: p.2) p.1 p.2) :
    FindAllString re (Replace (assignBuffer ps))
      = ps.map (fun p => p.1 ++ '=' :: p.2 ++ ['\n']) := by
  induction ps with
  | nil => exact FindAllString_nil
  | cons p ps ih =>
    have e : assignBuffer (p :: ps) = (p.1 ++ '=' :: p.2) ++ ['\n'] ++ assignBuffer ps := by
      simp [assignBuffer]
    rw [e, (h p (by simp)).assign_lines, ih (fun q hq => h q (List.mem_cons_of_mem _ hq))]
    rfl

theorem loadLines_assigns (ps : List (Str × Str)) : ∀ (cfg : RDCFG) (now : Str), now ≠ [] →
    (∃ sec, mapGet cfg.m now = some sec) → (ps.map Prod.fst).Nodup →
    (∀ p ∈ ps, cfg.value? now p.1 = none) →
    (∀ p ∈ ps, headerOf (p.1 ++ '=' :: p.2 ++ ['\n']) = none
      ∧ assignOf (p.1 ++ '=' :: p.2 ++ ['\n']) = some (p.1, p.2)) →
    (loadLines cfg now (ps.map (fun p => p.1 ++ '=' :: p.2 ++ ['\n']))).err = none
      ∧ ∀ p ∈ ps, (loadLines cfg now (ps.map (fun p => p.1 ++ '=' :: p.2 ++ ['\n']))).cfg.value?
          now p.1 = some p.2 := by
  induction ps with
  | nil => intro cfg now _ _ _ _ _; simp [loadLines]
  | cons p ps ih =>
    intro cfg now hnow hsec hnd habs hpar
    obtain ⟨sec, hsec⟩ := hsec
    obtain ⟨hs1, hs2, hs3⟩ := set_absent cfg now p.1 p.2 hnow sec hsec (habs p (by simp))
    have hset : cfg.set now p.1 p.2 = ((cfg.set now p.1 p.2).1, none) := Prod.ext rfl hs1
    have hnd2 : p.1 ∉ ps.map Prod.fst ∧ (ps.map Prod.fst).Nodup := by
      simpa using hnd
    have hpar2 : ∀ q ∈ ps, headerOf (q.1 ++ '=' :: q.2 ++ ['\n']) = none
        ∧ assignOf (q.1 ++ '=' :: q.2 ++ ['\n']) = some (q.1, q.2) :=
      fun q hq => hpar q (List.mem_cons_of_mem _ hq)
    have habs2 : ∀ q ∈ ps, (cfg.set now p.1 p.2).1.value? now q.1 = none := by
      intro q hq
      have hne : q.1 ≠ p.1 := by
        intro he
        exact hnd2.1 (he ▸ List.mem_map_of_mem Prod.fst hq)
      rw [hs3 q.1 hne]
      exact habs q (List.mem_cons_of_mem _ hq)
    rw [List.map_cons, loadLines_assign_ok _ _ _ _ _ _ _ (hpar p (by simp)).1
      (hpar p (by simp)).2 hset]
    obtain ⟨i1, i2⟩ := ih _ now hnow hs2 hnd2.2 habs2 hpar2
    refine ⟨i1, ?_⟩
    intro q hq
    rcases List.mem_cons.mp hq with rfl | hq
    · have hv := set_ok_value cfg now q.1 q.2 hnow _ hset
      have hnh : ∀ x ∈ ps.map (fun p => p.1 ++ '=' :: p.2 ++ ['\n']), headerOf x = none := by
        intro x hx
        obtain ⟨r, hr, rfl⟩ := List.mem_map.mp hx
        exact (hpar2 r hr).1
      exact (loadLines_noHeader _ _ now hnow hnh).2 _ _ _ hv
    · exact i2 q hq

/-! ## Where a stored value comes from -/

theorem set_origin (cfg cfg1 : RDCFG) (s k1 v1 n k v : Str) (hs : s ≠ [])
    (hset : cfg.set s k1 v1 = (cfg1, none)) (h : cfg1.value? n k = some v) :
    cfg.value? n k = some v ∨ (n = s ∧ k = k1 ∧ v = v1) := by
  rcases set_cases cfg s k1 v1 hs with ⟨_, e⟩ | ⟨sec, w1, h1, h2, e⟩ | ⟨sec, h1, h2, e⟩
  · rw [e] at hset; simp at hset
  · rw [e] at hset; simp at hset
  · rw [e] at hset
    simp only [Prod.mk.injEq, and_true] at hset
    subst hset
    unfold RDCFG.value? at h ⊢
    simp only [mapGet_mapSet] at h
    by_cases h3 : n = s
    · subst h3
      simp only [if_true, Option.some_bind, mapGet_mapSet] at h
      by_cases h4 : k = k1
      · subst h4
        simp only [if_true, Option.some.injEq] at h
        right; exact ⟨rfl, rfl, h.symm⟩
      · left
        rw [if_neg h4] at h
        rw [h1]; exact h
    · left
      rw [if_neg h3] at h
      exact h

/-- After a run without error over lines holding no header named `n`, every
value found in the store `n` was there before or comes from an assignment line
of the run. -/
theorem loadLines_value_origin (n : Str) (xs : List Str) : ∀ (cfg : RDCFG) (now : Str),
    now ≠ [] → (∀ y ∈ xs, headerOf y ≠ some n) → (loadLines cfg now xs).err = none →
    ∀ k v, (loadLines cfg now xs).cfg.value? n k = some v →
      cfg.value? n k = some v ∨ ∃ y ∈ xs, headerOf y = none ∧ assignOf y = some (k, v) := by
  induction xs with
  | nil => intro cfg now _ _ _ k v h; left; simpa [loadLines] using h
  | cons x xs ih =>
    intro cfg now hnow hx hok k v h
    have hxs : ∀ y ∈ xs, headerOf y ≠ some n := fun y hy => hx y (List.mem_cons_of_mem _ hy)
    cases hh : headerOf x with
    | some tmp =>
      have htn : tmp ≠ n := by
        intro he
        exact hx x (by simp) (by rw [hh, he])
      by_cases h1 : tmp = []
      · rw [loadLines_step, hh] at hok
        simp [h1] at hok
      · by_cases h2 : now = tmp
        · subst h2
          rw [loadLines_header_repeat _ _ _ _ hh h1] at hok
          simp at hok
        · rw [loadLines_header_new _ _ _ _ _ hh h1 h2] at hok h
          rcases ih _ _ h1 hxs hok k v h with h3 | ⟨y, hy, h3⟩
          · left
            rw [value?_addSection, if_neg (Ne.symm htn)] at h3
            exact h3
          · right; exact ⟨y, List.mem_cons_of_mem _ hy, h3⟩
    | none =>
      cases ha : assignOf x with
      | none =>
        have e : loadLines cfg now (x :: xs) = loadLines cfg now xs := by
          rw [loadLines_step, hh]; simp only [ha]
        rw [e] at hok h
        rcases ih _ _ hnow hxs hok k v h with h3 | ⟨y, hy, h3⟩
        · left; exact h3
        · right; exact ⟨y, List.mem_cons_of_mem _ hy, h3⟩
      | some kv =>
        obtain ⟨k1, v1⟩ := kv
        rcases hset : cfg.set now k1 v1 with ⟨cfg1, _ | err⟩
        · rw [loadLines_assign_ok _ _ _ _ _ _ _ hh ha hset] at hok h
          rcases ih _ _ hnow hxs hok k v h with h3 | ⟨y, hy, h3⟩
          · rcases set_origin cfg cfg1 now k1 v1 n k v hnow hset h3 with h4 | ⟨_, rfl, rfl⟩
            · left; exact h4
            · right; exact ⟨x, by simp, hh, ha⟩
          · right; exact ⟨y, List.mem_cons_of_mem _ hy, h3⟩
        · rw [loadLines_assign_err _ _ _ _ _ _ _ _ hh ha hset] at hok
          simp at hok

/-! ## Claims -/

/-- C1. `Get(s, k)` replaces an empty `s` by the default sentinel; it fails with
"specified section not found" exactly when no store is registered under that
name, with "could not find value by key" exactly when the store exists and `k`
is absent from it, and it returns the stored string exactly when there is one
(on every failure the returned string is empty). -/
theorem C1_Get_contract (cfg : RDCFG) (s k : Str) :
    ((cfg.Get s k).2 = some "specified section not found"
        ↔ mapGet cfg.m (if s = [] then RDCFG_DEFAULT_SECTION_NAME else s) = none)
    ∧ ((cfg.Get s k).2 = some "could not find value by key"
        ↔ ∃ sec, mapGet cfg.m (if s = [] then RDCFG_DEFAULT_SECTION_NAME else s) = some sec
            ∧ mapGet sec.m k = none)
    ∧ (∀ v, cfg.Get s k = (v, none)
        ↔ ∃ sec, mapGet cfg.m (if s = [] then RDCFG_DEFAULT_SECTION_NAME else s) = some sec
            ∧ mapGet sec.m k = some v)
    ∧ ((cfg.Get s k).2 ≠ none → (cfg.Get s k).1 = []) := by
  unfold RDCFG.Get RDCFG.getSection Section.get
  simp only
  cases h1 : mapGet cfg.m (if s = [] then RDCFG_DEFAULT_SECTION_NAME else s) with
  | none => simp
  | some sec =>
    cases h2 : mapGet sec.m k with
    | none =>
      simp only [h2]
      refine ⟨?_, ?_, ?_, by simp⟩
      · simp
      · simp [h2]
      · intro v; simp [h2]
    | some w =>
      simp only [h2]
      refine ⟨by simp, by simp [h2], ?_, by simp⟩
      intro v
      simp [h2]

/-- C2. For pairs `(k, v)` with pairwise distinct keys, each key non-empty,
without space, newline or `=` and not starting with `#`, each value non-empty
without space or newline (further `=` allowed), and no pair with the key
starting with `[` while the value ends with `]`: loading the buffer of the
lines `k=v` succeeds and `Get("", k)` returns exactly `v` for every pair. -/
theorem C2_load_then_get (cfg : RDCFG) (ps : List (Str × Str))
    (hd : (ps.map Prod.fst).Nodup)
    (hk : ∀ p ∈ ps, p.1 ≠ [] ∧ ' ' ∉ p.1 ∧ '\n' ∉ p.1 ∧ '=' ∉ p.1
      ∧ HasPrefix p.1 ['#'] = false)
    (hv : ∀ p ∈ ps, p.2 ≠ [] ∧ ' ' ∉ p.2 ∧ '\n' ∉ p.2)
    (hb : ∀ p ∈ ps, ¬ (HasPrefix p.1 ['['] = true ∧ HasSuffix p.2 [']'] = true)) :
    (cfg.loadCfg (assignBuffer ps)).2 = none
      ∧ ∀ p ∈ ps, (cfg.loadCfg (assignBuffer ps)).1.Get [] p.1 = (p.2, none) := by
  have hal : ∀ p ∈ ps, AssignLine (p.1 ++ '=' :: p.2) p.1 p.2 := by
    intro p hp
    obtain ⟨k1, k2, k3, k4, k5⟩ := hk p hp
    obtain ⟨v1, v2, v3⟩ := hv p hp
    refine ⟨by simp [k3, v3], ?_, k1, k4, k5, v1, hb p hp⟩
    apply Replace_of_no_space
    simp [k2, v2]
  have hdef : RDCFG_DEFAULT_SECTION_NAME ≠ [] := by decide
  have hrun : loadRun cfg (assignBuffer ps)
      = loadLines (cfg.addSection RDCFG_DEFAULT_SECTION_NAME) RDCFG_DEFAULT_SECTION_NAME
          (ps.map (fun p => p.1 ++ '=' :: p.2 ++ ['\n'])) := by
    unfold loadRun
    simp only
    rw [lines_assignBuffer ps hal]
  obtain ⟨h1, h2⟩ := loadLines_assigns ps (cfg.addSection RDCFG_DEFAULT_SECTION_NAME)
    RDCFG_DEFAULT_SECTION_NAME hdef
    ⟨newSection RDCFG_DEFAULT_SECTION_NAME, by rw [mapGet_addSection, if_pos rfl]⟩ hd
    (fun p _ => by rw [value?_addSection, if_pos rfl])
    (fun p hp => (hal p hp).parse)
  unfold RDCFG.loadCfg
  rw [hrun]
  refine ⟨h1, fun p hp => ?_⟩
  rw [Get_nil]
  exact Get_of_value _ _ _ _ hdef (h2 p hp)

theorem C2_load_then_get_witness :
    (RDCFG.loadCfg { m := [] }
        (assignBuffer [("a".toList, "b=c".toList), ("k".toList, "v".toList)])).2 = none
      ∧ ∀ p ∈ [("a".toList, "b=c".toList), ("k".toList, "v".toList)],
          (RDCFG.loadCfg { m := [] }
            (assignBuffer [("a".toList, "b=c".toList), ("k".toList, "v".toList)])).1.Get [] p.1
            = (p.2, none) :=
  C2_load_then_get { m := [] } [("a".toList, "b=c".toList), ("k".toList, "v".toList)]
    (by decide) (by decide) (by decide) (by decide)

/-- C3. `NewRDCFG`, as a function of the content read: a content that does not
end with the newline character (the empty content included) gives the error
"Config file does not end with a newline character." and no document, whatever
parsing it would have produced. -/
theorem C3_missing_trailing_newline (content : Str) (h : ∀ t, content ≠ t ++ ['\n']) :
    NewRDCFG content = (none, some "Config file does not end with a newline character.") := by
  have hs : HasSuffix content ['\n'] = false := by
    rw [Bool.eq_false_iff]
    intro hc
    obtain ⟨t, ht⟩ := (HasSuffix_singleton content '\n').mp hc
    exact h t ht
  unfold NewRDCFG
  simp [hs]

theorem C3_missing_trailing_newline_witness :
    (∀ t, ['[', ']'] ≠ t ++ ['\n'])
      ∧ (RDCFG.loadCfg { m := [] } ['[', ']', '\n']).2 = some "section name is null"
      ∧ NewRDCFG ['[', ']']
          = (none, some "Config file does not end with a newline character.")
      ∧ NewRDCFG [] = (none, some "Config file does not end with a newline character.") :=
  ⟨fun t ht => by
      have := congrArg List.getLast? ht
      simp at this,
    by decide,
    C3_missing_trailing_newline ['[', ']'] (fun t ht => by
      have := congrArg List.getLast? ht
      simp at this),
    C3_missing_trailing_newline [] (fun t ht => by
      have := congrArg List.length ht
      simp at this)⟩

/-- C4. Assigning the same key twice within one section fails on the second
assignment: if `p` and `m` are made of whole lines, `l1` and `l2` read as the
assignments `k=v1` and `k=v2`, the buffer `p ++ l1 ++ "\n" ++ m` loads without
error and no section header is extracted from `m`, then loading
`p ++ l1 ++ "\n" ++ m ++ l2 ++ "\n" ++ q` fails with "key already exists",
whatever `q` is, and when it fails the current section still maps `k` to `v1`. -/
theorem C4_duplicate_key (cfg : RDCFG) (p m q l1 l2 k v1 v2 : Str)
    (hp : EndsNL p) (hm : EndsNL m) (hl1 : AssignLine l1 k v1) (hl2 : AssignLine l2 k v2)
    (hok : (cfg.loadCfg (p ++ l1 ++ ['\n'] ++ m)).2 = none)
    (hnh : ∀ x ∈ FindAllString re (Replace m), headerOf x = none) :
    (cfg.loadCfg (p ++ l1 ++ ['\n'] ++ m ++ l2 ++ ['\n'] ++ q)).2 = some "key already exists"
      ∧ (cfg.loadCfg (p ++ l1 ++ ['\n'] ++ m ++ l2 ++ ['\n'] ++ q)).1.Get
          (loadRun cfg (p ++ l1 ++ ['\n'] ++ m ++ l2 ++ ['\n'] ++ q)).nowSectionName k
          = (v1, none) := by
  have e1 : p ++ l1 ++ ['\n'] ++ m = (p ++ (l1 ++ ['\n'])) ++ m := by simp
  have e2 : p ++ l1 ++ ['\n'] ++ m ++ l2 ++ ['\n'] ++ q
      = ((p ++ (l1 ++ ['\n'])) ++ m) ++ (l2 ++ ['\n'] ++ q) := by simp
  have hokA : (loadRun cfg ((p ++ (l1 ++ ['\n'])) ++ m)).err = none := by
    rw [← e1]; exact hok
  have hp1 : EndsNL (p ++ (l1 ++ ['\n'])) := EndsNL_append _ _ hp (EndsNL_line l1)
  have hA : EndsNL ((p ++ (l1 ++ ['\n'])) ++ m) := EndsNL_append _ _ hp1 hm
  have hok1 := loadRun_prefix_ok cfg _ m hp1 hokA
  have hval1 := loadRun_assign_value cfg p l1 k v1 hp hl1 hok1
  obtain ⟨hnow, hkeep⟩ := loadRun_noHeader cfg _ m hp1 hok1 hnh
  have hvalA := hkeep _ _ _ hval1
  rw [← hnow] at hvalA
  have hne := loadRun_now_ne_nil cfg ((p ++ (l1 ++ ['\n'])) ++ m)
  obtain ⟨herr, hstill⟩ := set_present _ _ k v2 v1 hne hvalA
  have hrun : loadRun cfg (p ++ l1 ++ ['\n'] ++ m ++ l2 ++ ['\n'] ++ q)
      = ⟨((loadRun cfg ((p ++ (l1 ++ ['\n'])) ++ m)).cfg.set
            (loadRun cfg ((p ++ (l1 ++ ['\n'])) ++ m)).nowSectionName k v2).1,
          (loadRun cfg ((p ++ (l1 ++ ['\n'])) ++ m)).nowSectionName,
          some "key already exists"⟩ := by
    rw [e2, loadRun_append_ok cfg _ _ hA hokA, hl2.assign_lines q]
    exact loadLines_assign_err _ _ _ _ _ _ _ _ hl2.parse.1 hl2.parse.2
      (Prod.ext rfl herr)
  unfold RDCFG.loadCfg
  rw [hrun]
  exact ⟨rfl, Get_of_value _ _ _ _ hne hstill⟩

theorem C4_duplicate_key_witness :
    EndsNL "a=b\n".toList ∧ EndsNL "c=d\n".toList
      ∧ AssignLine "k = v".toList "k".toList "v".toList
      ∧ AssignLine "k=w".toList "k".toList "w".toList
      ∧ (RDCFG.loadCfg { m := [] }
          ("a=b\n".toList ++ "k = v".toList ++ ['\n'] ++ "c=d\n".toList)).2 = none
      ∧ (RDCFG.loadCfg { m := [] } ("a=b\n".toList ++ "k = v".toList ++ ['\n']
            ++ "c=d\n".toList ++ "k=w".toList ++ ['\n'] ++ "e=f\n".toList)).2
          = some "key already exists"
      ∧ (RDCFG.loadCfg { m := [] } ("a=b\n".toList ++ "k = v".toList ++ ['\n']
            ++ "c=d\n".toList ++ "k=w".toList ++ ['\n'] ++ "e=f\n".toList)).1.Get
          (loadRun { m := [] } ("a=b\n".toList ++ "k = v".toList ++ ['\n']
            ++ "c=d\n".toList ++ "k=w".toList ++ ['\n'] ++ "e=f\n".toList)).nowSectionName
          "k".toList = ("v".toList, none) :=
  have h1 : EndsNL "a=b\n".toList := Or.inr ⟨"a=b".toList, by decide⟩
  have h2 : EndsNL "c=d\n".toList := Or.inr ⟨"c=d".toList, by decide⟩
  have h3 : AssignLine "k = v".toList "k".toList "v".toList := by
    unfold AssignLine; decide
  have h4 : AssignLine "k=w".toList "k".toList "w".toList := by
    unfold AssignLine; decide
  have h5 : (RDCFG.loadCfg { m := [] }
      ("a=b\n".toList ++ "k = v".toList ++ ['\n'] ++ "c=d\n".toList)).2 = none := by decide
  have h6 := C4_duplicate_key { m := [] } "a=b\n".toList "c=d\n".toList "e=f\n".toList
    "k = v".toList "k=w".toList "k".toList "v".toList "w".toList h1 h2 h3 h4 h5 (by decide)
  ⟨h1, h2, h3, h4, h5, h6.1, h6.2⟩

/-- C5. An empty bracket pair is rejected: if `p` is made of whole lines and
loads without error, loading `p` followed by the line `[]` (and anything after
it) fails with "section name is null". -/
theorem C5_empty_section_name (cfg : RDCFG) (p q : Str) (hp : EndsNL p)
    (hok : (cfg.loadCfg p).2 = none) :
    (cfg.loadCfg (p ++ ['[', ']', '\n'] ++ q)).2 = some "section name is null" := by
  have hok1 : (loadRun cfg p).err = none := hok
  show (loadRun cfg (p ++ ['[', ']', '\n'] ++ q)).err = _
  rw [List.append_assoc, loadRun_append_ok cfg p _ hp hok1, Replace_append]
  have e1 : Replace ['[', ']', '\n'] = '[' :: [] ++ [']'] ++ ['\n'] := by decide
  rw [e1, FindAllString_header [] _ (by simp), loadLines_step]
  have e2 : headerOf ('[' :: [] ++ [']'] ++ ['\n']) = some [] := by decide
  rw [e2]
  simp

theorem C5_empty_section_name_witness :
    EndsNL [] ∧ (RDCFG.loadCfg { m := [] } []).2 = none
      ∧ (RDCFG.loadCfg { m := [] } ([] ++ ['[', ']', '\n'] ++ [])).2
          = some "section name is null" :=
  ⟨Or.inl rfl, by decide, C5_empty_section_name { m := [] } [] [] (Or.inl rfl) (by decide)⟩

/-- C6. Two consecutive identical section headers are rejected: for a section
name `n` (non-empty, no space, no newline, no bracket at either end), if `p`
and `m` are made of whole lines, no section header is extracted from `m` and
`p ++ "[n]\n" ++ m` loads without error, then loading
`p ++ "[n]\n" ++ m ++ "[n]\n" ++ q` fails with "repeat section name". -/
theorem C6_repeat_section (cfg : RDCFG) (n p m q : Str) (hn : ValidName n)
    (hp : EndsNL p) (hm : EndsNL m)
    (hnh : ∀ x ∈ FindAllString re (Replace m), headerOf x = none)
    (hok : (cfg.loadCfg (p ++ ('[' :: n ++ [']'] ++ ['\n']) ++ m)).2 = none) :
    (cfg.loadCfg (p ++ ('[' :: n ++ [']'] ++ ['\n']) ++ m
        ++ ('[' :: n ++ [']'] ++ ['\n']) ++ q)).2 = some "repeat section name" := by
  have hokA : (loadRun cfg (p ++ ('[' :: n ++ [']'] ++ ['\n']) ++ m)).err = none := hok
  have hp1 : EndsNL (p ++ ('[' :: n ++ [']'] ++ ['\n'])) :=
    EndsNL_append _ _ hp (EndsNL_line _)
  have hA : EndsNL (p ++ ('[' :: n ++ [']'] ++ ['\n']) ++ m) := EndsNL_append _ _ hp1 hm
  have hok1 := loadRun_prefix_ok cfg _ m hp1 hokA
  have hnow1 := loadRun_header_now cfg p n hp hn hok1
  obtain ⟨hnow, _⟩ := loadRun_noHeader cfg _ m hp1 hok1 hnh
  rw [hnow1] at hnow
  show (loadRun cfg _).err = _
  rw [List.append_assoc _ _ q, loadRun_append_ok cfg _ _ hA hokA, hn.header_lines q, hnow,
    loadLines_header_repeat _ _ _ _ (line_header n hn) hn.1]

theorem C6_repeat_section_witness :
    ValidName "a".toList ∧ EndsNL "x=1\n".toList ∧ EndsNL "y=2\n".toList
      ∧ (∀ x ∈ FindAllString re (Replace "y=2\n".toList), headerOf x = none)
      ∧ (RDCFG.loadCfg { m := [] }
          ("x=1\n".toList ++ ('[' :: "a".toList ++ [']'] ++ ['\n']) ++ "y=2\n".toList)).2 = none
      ∧ (RDCFG.loadCfg { m := [] }
          ("x=1\n".toList ++ ('[' :: "a".toList ++ [']'] ++ ['\n']) ++ "y=2\n".toList
            ++ ('[' :: "a".toList ++ [']'] ++ ['\n']) ++ "z=3\n".toList)).2
          = some "repeat section name" :=
  have h0 : ValidName "a".toList := by unfold ValidName; decide
  have h1 : EndsNL "x=1\n".toList := Or.inr ⟨"x=1".toList, by decide⟩
  have h2 : EndsNL "y=2\n".toList := Or.inr ⟨"y=2".toList, by decide⟩
  have h3 : ∀ x ∈ FindAllString re (Replace "y=2\n".toList), headerOf x = none := by decide
  have h4 : (RDCFG.loadCfg { m := [] }
      ("x=1\n".toList ++ ('[' :: "a".toList ++ [']'] ++ ['\n']) ++ "y=2\n".toList)).2
        = none := by decide
  ⟨h0, h1, h2, h3, h4,
    C6_repeat_section { m := [] } "a".toList "x=1\n".toList "y=2\n".toList "z=3\n".toList
      h0 h1 h2 h3 h4⟩

/-- C7. Re-opening an earlier section after a different one succeeds and
replaces the earlier store: for distinct section names `a`, `b` and an
assignment line `k=v`, loading `[a]`, `k=v`, `[b]`, `[a]` succeeds and then
`Get(a, k)` fails with "could not find value by key". More generally, after a
load without error, a value found in the store `n` comes from an assignment
line extracted after the last header line named `n`. -/
theorem C7_reopen_section (cfg : RDCFG) (a b l k v : Str) (ha : ValidName a)
    (hb : ValidName b) (hab : a ≠ b) (hl : AssignLine l k v) :
    ((cfg.loadCfg (('[' :: a ++ [']'] ++ ['\n']) ++ (l ++ ['\n'] ++
        (('[' :: b ++ [']'] ++ ['\n']) ++ (('[' :: a ++ [']'] ++ ['\n']) ++ []))))).2 = none
      ∧ (cfg.loadCfg (('[' :: a ++ [']'] ++ ['\n']) ++ (l ++ ['\n'] ++
        (('[' :: b ++ [']'] ++ ['\n']) ++ (('[' :: a ++ [']'] ++ ['\n']) ++ []))))).1.Get a k
          = ([], some "could not find value by key"))
    ∧ ∀ (cfg0 : RDCFG) (buf : Str) (pre post : List Str) (x n k0 v0 : Str),
        FindAllString re (Replace buf) = pre ++ x :: post → headerOf x = some n →
        (∀ y ∈ post, headerOf y ≠ some n) → (cfg0.loadCfg buf).2 = none →
        (cfg0.loadCfg buf).1.Get n k0 = (v0, none) →
        ∃ y ∈ post, headerOf y = none ∧ assignOf y = some (k0, v0) := by
  constructor
  · have hdef : RDCFG_DEFAULT_SECTION_NAME ≠ a := by
      intro h
      exact ha.2.1 (by rw [← h]; simp [RDCFG_DEFAULT_SECTION_NAME])
    have hrun : loadRun cfg (('[' :: a ++ [']'] ++ ['\n']) ++ (l ++ ['\n'] ++
        (('[' :: b ++ [']'] ++ ['\n']) ++ (('[' :: a ++ [']'] ++ ['\n']) ++ []))))
        = ⟨((((cfg.addSection RDCFG_DEFAULT_SECTION_NAME).addSection a).set a k v).1.addSection
            b).addSection a, a, none⟩ := by
      unfold loadRun
      simp only
      rw [ha.header_lines, hl.assign_lines, hb.header_lines, ha.header_lines]
      have e : FindAllString re (Replace []) = [] := FindAllString_nil
      rw [e, loadLines_header_new _ _ _ _ _ (line_header a ha) ha.1 hdef]
      have hset := set_absent ((cfg.addSection RDCFG_DEFAULT_SECTION_NAME).addSection a) a k v
        ha.1 (newSection a) (by rw [mapGet_addSection, if_pos rfl])
        (by rw [value?_addSection, if_pos rfl])
      rw [loadLines_assign_ok _ _ _ _ _ _ _ hl.parse.1 hl.parse.2 (Prod.ext rfl hset.1),
        loadLines_header_new _ _ _ _ _ (line_header b hb) hb.1 hab,
        loadLines_header_new _ _ _ _ _ (line_header a ha) ha.1 (Ne.symm hab)]
      simp [loadLines]
    unfold RDCFG.loadCfg
    rw [hrun]
    refine ⟨rfl, ?_⟩
    unfold RDCFG.Get RDCFG.getSection Section.get
    simp only [if_neg ha.1, mapGet_addSection, if_true]
    simp [newSection, mapGet]
  · intro cfg0 buf pre post x n k0 v0 hlines hx hpost hok hget
    have hok1 : (loadRun cfg0 buf).err = none := hok
    have hget1 : (loadRun cfg0 buf).cfg.Get n k0 = (v0, none) := hget
    unfold loadRun at hok1 hget1
    simp only at hok1 hget1
    rw [hlines] at hok1 hget1
    have hpre : (loadLines (cfg0.addSection RDCFG_DEFAULT_SECTION_NAME)
        RDCFG_DEFAULT_SECTION_NAME pre).err = none := by
      cases he : (loadLines (cfg0.addSection RDCFG_DEFAULT_SECTION_NAME)
          RDCFG_DEFAULT_SECTION_NAME pre).err with
      | none => rfl
      | some e =>
        rw [loadLines_append_err _ _ _ _ e he, he] at hok1
        exact absurd hok1 (by simp)
    rw [loadLines_append_ok _ _ _ _ hpre] at hok1 hget1
    have hn : n ≠ [] := by
      intro h
      rw [loadLines_step, hx] at hok1
      simp [h] at hok1
    by_cases hnow : (loadLines (cfg0.addSection RDCFG_DEFAULT_SECTION_NAME)
        RDCFG_DEFAULT_SECTION_NAME pre).nowSectionName = n
    · rw [hnow, loadLines_header_repeat _ _ _ _ hx hn] at hok1
      exact absurd hok1 (by simp)
    · rw [loadLines_header_new _ _ _ _ _ hx hn hnow] at hok1 hget1
      have hval := value_of_Get _ _ _ _ hn hget1
      rcases loadLines_value_origin n post _ n hn hpost hok1 k0 v0 hval with h | h
      · rw [value?_addSection, if_pos rfl] at h
        exact absurd h (by simp)
      · exact h

theorem C7_reopen_section_witness :
    ValidName "a".toList ∧ ValidName "b".toList ∧ "a".toList ≠ "b".toList
      ∧ AssignLine "k=v".toList "k".toList "v".toList
      ∧ (RDCFG.loadCfg { m := [] } "[a]\nk=v\n[b]\n[a]\n".toList).2 = none
      ∧ (RDCFG.loadCfg { m := [] } "[a]\nk=v\n[b]\n[a]\n".toList).1.Get "a".toList "k".toList
          = ([], some "could not find value by key") :=
  have h1 : ValidName "a".toList := by unfold ValidName; decide
  have h2 : ValidName "b".toList := by unfold ValidName; decide
  have h3 : AssignLine "k=v".toList "k".toList "v".toList := by unfold AssignLine; decide
  ⟨h1, h2, by decide, h3,
    (C7_reopen_section { m := [] } "a".toList "b".toList "k=v".toList "k".toList "v".toList
      h1 h2 (by decide) h3).1⟩

/-- C8 (evaluation). The line filter is not anchored at the start of a line:
from the comment line `#[x]` it extracts `[x]`, so loading `#[x]` registers a
section `x` where loading the empty buffer registers only the default one, and
the comment `# see [broker]` placed before the header `[broker]` makes the load
fail with "repeat section name". -/
theorem C8_comment_line_opens_section :
    RDCFG.loadCfg { m := [] } "#[x]\n".toList
        = ({ m := [([' '], { name := [' '], m := [] }), (['x'], { name := ['x'], m := [] })] },
            none)
      ∧ RDCFG.loadCfg { m := [] } []
        = ({ m := [([' '], { name := [' '], m := [] })] }, none)
      ∧ (RDCFG.loadCfg { m := [] } "# see [broker]\n[broker]\n".toList).2
        = some "repeat section name"
      ∧ (RDCFG.loadCfg { m := [] } "[broker]\n".toList).2 = none := by
  decide

/-- C9 (evaluation). The line filter is not anchored at the start of a line:
the line `x[a]` is neither a bracketed header alone on its line nor an
assignment, yet loading it registers a section `a`, and loading the line `x[]`
fails with "section name is null", where the empty buffer loads without error
into the default section alone. -/
theorem C9_malformed_line_not_ignored :
    RDCFG.loadCfg { m := [] } "x[a]\n".toList
        = ({ m := [([' '], { name := [' '], m := [] }), (['a'], { name := ['a'], m := [] })] },
            none)
      ∧ (RDCFG.loadCfg { m := [] } "x[]\n".toList).2 = some "section name is null"
      ∧ RDCFG.loadCfg { m := [] } []
        = ({ m := [([' '], { name := [' '], m := [] })] }, none) := by
  decide

/-- C10. Whitespace-insensitivity: two buffers that are equal once every space
is removed load to the same outcome (same error, same document), and a buffer
loads like itself with its spaces removed; `ip=127.0.0.1` and ` ip = 127.0.0.1 `
both load to the single default-section pair `ip -> 127.0.0.1`. -/
theorem C10_space_insensitive (cfg : RDCFG) (b1 b2 : Str) (h : Replace b1 = Replace b2) :
    cfg.loadCfg b1 = cfg.loadCfg b2
      ∧ cfg.loadCfg b1 = cfg.loadCfg (Replace b1)
      ∧ RDCFG.loadCfg { m := [] } "ip=127.0.0.1\n".toList
          = ({ m := [([' '], { name := [' '], m := [("ip".toList, "127.0.0.1".toList)] })] }, none)
      ∧ RDCFG.loadCfg { m := [] } " ip = 127.0.0.1 \n".toList
          = ({ m := [([' '], { name := [' '], m := [("ip".toList, "127.0.0.1".toList)] })] }, none) := by
  refine ⟨?_, ?_, by decide, by decide⟩
  · unfold RDCFG.loadCfg loadRun
    simp only [h]
  · unfold RDCFG.loadCfg loadRun
    simp only [Replace_idem]

theorem C10_space_insensitive_witness :
    Replace "ip=127.0.0.1\n".toList = Replace " ip = 127.0.0.1 \n".toList
      ∧ RDCFG.loadCfg { m := [] } "ip=127.0.0.1\n".toList
          = RDCFG.loadCfg { m := [] } " ip = 127.0.0.1 \n".toList :=
  ⟨by decide, (C10_space_insensitive { m := [] } "ip=127.0.0.1\n".toList
    " ip = 127.0.0.1 \n".toList (by decide)).1⟩

/-! ## Extracted lines -/

theorem mem_scanLine : ∀ (l x : Str), x ∈ scanLine l →
    ∃ l1, x = l1 ++ ['\n'] ∧ LineShape l1 ∧ ∀ c ∈ l1, c ∈ l := by
  intro l
  induction l with
  | nil => intro x h; simp [scanLine] at h
  | cons c l ih =>
    intro x h
    rw [scanLine] at h
    by_cases hs : lineShape (c :: l) = true
    · rw [if_pos hs] at h
      simp only [List.mem_singleton] at h
      exact ⟨c :: l, h, (lineShape_iff _).mp hs, fun _ h => h⟩
    · rw [if_neg hs] at h
      obtain ⟨l1, h1, h2, h3⟩ := ih x h
      exact ⟨l1, h1, h2, fun d hd => List.mem_cons_of_mem _ (h3 d hd)⟩

/-- Every extracted line is a piece of one line of the buffer, of one of the
two shapes, followed by the newline. -/
theorem mem_FindAllString_re : ∀ (n : Nat) (s x : Str), s.length ≤ n → x ∈ FindAllString re s →
    ∃ l, x = l ++ ['\n'] ∧ '\n' ∉ l ∧ LineShape l ∧ ∀ c ∈ l, c ∈ s := by
  intro n
  induction n with
  | zero =>
    intro s x hs h
    have : s = [] := List.eq_nil_of_length_eq_zero (Nat.le_zero.mp hs)
    subst this
    rw [FindAllString_nil] at h
    simp at h
  | succ n ih =>
    intro s x hs h
    by_cases hnl : '\n' ∈ s
    · obtain ⟨l0, rest, rfl, hl0⟩ := List.eq_append_cons_of_mem hnl
      rw [FindAllString_line l0 rest hl0, List.mem_append] at h
      rcases h with h | h
      · obtain ⟨l1, h1, h2, h3⟩ := mem_scanLine l0 x h
        refine ⟨l1, h1, fun hm => hl0 (h3 _ hm), h2, fun c hc => ?_⟩
        exact List.mem_append_left _ (h3 c hc)
      · have hlen : rest.length ≤ n := by
          simp only [List.length_append, List.length_cons] at hs
          omega
        obtain ⟨l1, h1, h2, h3, h4⟩ := ih rest x hlen h
        exact ⟨l1, h1, h2, h3, fun c hc =>
          List.mem_append_right _ (List.mem_cons_of_mem _ (h4 c hc))⟩
    · rw [FindAllString_noNL s hnl] at h
      simp at h

theorem mem_lines (buf x : Str) (h : x ∈ FindAllString re (Replace buf)) :
    ∃ l, x = l ++ ['\n'] ∧ '\n' ∉ l ∧ ' ' ∉ l ∧ LineShape l := by
  obtain ⟨l, h1, h2, h3, h4⟩ := mem_FindAllString_re _ _ x le_rfl h
  refine ⟨l, h1, h2, fun hsp => ?_, h3⟩
  have := h4 _ hsp
  simp [Replace] at this

theorem TrimRight_of_noNL (l : Str) (h : '\n' ∉ l) : TrimRight (l ++ ['\n']) ['\n'] = l := by
  apply TrimRight_line
  intro t ht
  rw [ht] at h
  simp at h

theorem mem_of_mem_Trim (s cut : Str) (c : Char) (h : c ∈ Trim s cut) : c ∈ s := by
  unfold Trim at h
  exact (List.dropWhile_suffix _).subset ((List.rdropWhile_prefix _ _).subset h)

theorem indexOf_le_of_split (a b : Str) (c : Char) : (a ++ c :: b).indexOf c ≤ a.length := by
  by_cases h : c ∈ a
  · rw [List.indexOf_append_of_mem h]
    exact List.indexOf_le_length
  · rw [List.indexOf_append_of_not_mem h, List.indexOf_cons_self]
    simp

/-- The name a header line of the space-free buffer contributes is made of
characters of the line. -/
theorem headerOf_chars (l n : Str) (hl : '\n' ∉ l) (h : headerOf (l ++ ['\n']) = some n) :
    ∀ c ∈ n, c ∈ l := by
  unfold headerOf at h
  rw [TrimRight_of_noNL l hl] at h
  by_cases h1 : HasPrefix (l ++ ['\n']) ['#'] = true
  · simp [h1] at h
  · by_cases h2 : (HasPrefix l ['['] && HasSuffix l [']']) = true
    · simp only [h1, h2, if_true, if_false, Bool.false_eq_true, Option.some.injEq] at h
      subst h
      exact fun c hc => mem_of_mem_Trim _ _ c hc
    · simp [h1, h2] at h

/-- The key and the value of an assignment line are made of characters of the
line, and the value is not empty. -/
theorem assignOf_chars (l k v : Str) (hl : '\n' ∉ l) (hs : LineShape l)
    (h : assignOf (l ++ ['\n']) = some (k, v)) :
    (∀ c ∈ k, c ∈ l) ∧ (∀ c ∈ v, c ∈ l) ∧ v ≠ [] := by
  unfold assignOf at h
  rw [TrimRight_of_noNL l hl] at h
  by_cases h1 : HasPrefix (l ++ ['\n']) ['#'] = true
  · simp [h1] at h
  · by_cases h2 : (HasPrefix l ['['] && HasSuffix l [']']) = true
    · simp [h1, h2] at h
    · by_cases h3 : Index l '=' ≥ 0
      · simp only [h1, h2, h3, if_true, if_false, Bool.false_eq_true, Option.some.injEq,
          Prod.mk.injEq] at h
        obtain ⟨hk, hv⟩ := h
        subst hk hv
        refine ⟨fun c hc => List.mem_of_mem_take hc, fun c hc => List.mem_of_mem_drop hc, ?_⟩
        rcases hs with ⟨mid, rfl⟩ | ⟨a, b, ha, hb, rfl⟩
        · exfalso
          apply h2
          rw [Bool.and_eq_true]
          exact ⟨(HasPrefix_singleton _ _).mpr ⟨_, rfl⟩,
            (HasSuffix_singleton _ _).mpr ⟨'[' :: mid, rfl⟩⟩
        · have hidx : Index (a ++ '=' :: b) '=' = ((a ++ '=' :: b).indexOf '=' : Int) := by
            unfold Index
            rw [if_pos (by simp)]
          rw [hidx, Int.toNat_ofNat]
          have hle := indexOf_le_of_split a b '='
          intro hnil
          have hlen := congrArg List.length hnil
          simp only [List.length_drop, List.length_append, List.length_cons,
            List.length_nil] at hlen
          have hb1 : 0 < b.length := List.length_pos.mpr hb
          omega
      · simp [h1, h2, h3] at h

/-! ## Invariants kept by every step -/

theorem mem_mapSet {ν : Type} (m : List (Str × ν)) (k : Str) (v : ν) (p : Str × ν)
    (h : p ∈ mapSet m k v) : p = (k, v) ∨ p ∈ m := by
  induction m with
  | nil => left; simpa [mapSet] using h
  | cons a m ih =>
    obtain ⟨k1, v1⟩ := a
    by_cases h1 : k1 = k
    · simp only [mapSet, if_pos h1, List.mem_cons] at h
      rcases h with h | h
      · left; exact h
      · right; exact List.mem_cons_of_mem _ h
    · simp only [mapSet, if_neg h1, List.mem_cons] at h
      rcases h with h | h
      · right; rw [h]; exact List.mem_cons_self _ _
      · rcases ih h with h2 | h2
        · left; exact h2
        · right; exact List.mem_cons_of_mem _ h2

theorem mapGet_mem {ν : Type} (m : List (Str × ν)) (k : Str) (v : ν)
    (h : mapGet m k = some v) : (k, v) ∈ m := by
  induction m with
  | nil => simp [mapGet] at h
  | cons a m ih =>
    obtain ⟨k1, v1⟩ := a
    by_cases h1 : k1 = k
    · simp only [mapGet, if_pos h1, Option.some.injEq] at h
      rw [h1, h]
      exact List.mem_cons_self _ _
    · simp only [mapGet, if_neg h1] at h
      exact List.mem_cons_of_mem _ (ih h)

theorem set_nil (cfg : RDCFG) (k v : Str) :
    cfg.set [] k v = cfg.set RDCFG_DEFAULT_SECTION_NAME k v := by
  simp [RDCFG.set, RDCFG_DEFAULT_SECTION_NAME]

/-- A property of documents kept by `addSection` and by `set` is kept by the
loop, whether it ends with an error or not. -/
theorem loadLines_preserves (P : RDCFG → Prop) : ∀ (xs : List Str),
    (∀ cfg x n, x ∈ xs → headerOf x = some n → n ≠ [] → P cfg → P (cfg.addSection n)) →
    (∀ cfg s x k v, x ∈ xs → headerOf x = none → assignOf x = some (k, v) → s ≠ [] →
      P cfg → P (cfg.set s k v).1) →
    ∀ (cfg : RDCFG) (now : Str), now ≠ [] → P cfg → P (loadLines cfg now xs).cfg := by
  intro xs
  induction xs with
  | nil => intro _ _ cfg now _ h; simpa [loadLines] using h
  | cons x xs ih =>
    intro hadd hset cfg now hnow h
    have hadd2 : ∀ cfg y n, y ∈ xs → headerOf y = some n → n ≠ [] → P cfg →
        P (cfg.addSection n) := fun cfg y n hy => hadd cfg y n (List.mem_cons_of_mem _ hy)
    have hset2 : ∀ cfg s y k v, y ∈ xs → headerOf y = none → assignOf y = some (k, v) →
        s ≠ [] → P cfg → P (cfg.set s k v).1 :=
      fun cfg s y k v hy => hset cfg s y k v (List.mem_cons_of_mem _ hy)
    cases hh : headerOf x with
    | some tmp =>
      by_cases h1 : tmp = []
      · rw [loadLines_step, hh]
        simpa [h1] using h
      · by_cases h2 : now = tmp
        · subst h2
          rw [loadLines_header_repeat _ _ _ _ hh h1]
          exact h
        · rw [loadLines_header_new _ _ _ _ _ hh h1 h2]
          exact ih hadd2 hset2 _ _ h1 (hadd cfg x tmp (List.mem_cons_self _ _) hh h1 h)
    | none =>
      cases ha : assignOf x with
      | none =>
        have e : loadLines cfg now (x :: xs) = loadLines cfg now xs := by
          rw [loadLines_step, hh]; simp only [ha]
        rw [e]
        exact ih hadd2 hset2 _ _ hnow h
      | some kv =>
        obtain ⟨k1, v1⟩ := kv
        have hP := hset cfg now x k1 v1 (List.mem_cons_self _ _) hh ha hnow h
        rcases hs : cfg.set now k1 v1 with ⟨cfg1, _ | err⟩
        · rw [hs] at hP
          rw [loadLines_assign_ok _ _ _ _ _ _ _ hh ha hs]
          exact ih hadd2 hset2 _ _ hnow hP
        · rw [hs] at hP
          rw [loadLines_assign_err _ _ _ _ _ _ _ _ hh ha hs]
          exact hP

/-- A store that is registered stays registered through `set`. -/
theorem set_keeps_section (cfg : RDCFG) (s k v s2 : Str) (hs : s ≠ [])
    (h : ∃ sec, mapGet cfg.m s2 = some sec) : ∃ sec, mapGet (cfg.set s k v).1.m s2 = some sec := by
  rcases set_cases cfg s k v hs with ⟨_, e⟩ | ⟨sec, w1, h1, h2, e⟩ | ⟨sec, h1, h2, e⟩
  · rw [e]; exact h
  · rw [e]
    simp only [mapGet_mapSet]
    by_cases h3 : s2 = s
    · exact ⟨sec, by rw [if_pos h3]⟩
    · rw [if_neg h3]; exact h
  · rw [e]
    simp only [mapGet_mapSet]
    by_cases h3 : s2 = s
    · exact ⟨_, by rw [if_pos h3]⟩
    · rw [if_neg h3]; exact h

/-- No new store name appears through `set`. -/
theorem set_no_new_section (cfg : RDCFG) (s k v s2 : Str) (hs : s ≠ [])
    (h : ∃ sec, mapGet (cfg.set s k v).1.m s2 = some sec) : ∃ sec, mapGet cfg.m s2 = some sec := by
  rcases set_cases cfg s k v hs with ⟨_, e⟩ | ⟨sec, w1, h1, h2, e⟩ | ⟨sec, h1, h2, e⟩
  · rw [e] at h; exact h
  · rw [e] at h
    simp only [mapGet_mapSet] at h
    by_cases h3 : s2 = s
    · exact ⟨sec, by rw [h3]; exact h1⟩
    · rw [if_neg h3] at h; exact h
  · rw [e] at h
    simp only [mapGet_mapSet] at h
    by_cases h3 : s2 = s
    · exact ⟨sec, by rw [h3]; exact h1⟩
    · rw [if_neg h3] at h; exact h

theorem addSection_keeps_section (cfg : RDCFG) (n s2 : Str)
    (h : ∃ sec, mapGet cfg.m s2 = some sec) : ∃ sec, mapGet (cfg.addSection n).m s2 = some sec := by
  rw [mapGet_addSection]
  by_cases h3 : s2 = n
  · exact ⟨_, by rw [if_pos h3]⟩
  · rw [if_neg h3]; exact h

/-- The loop returns no error other than the three format errors, as long as the
store of the current section is registered. -/
theorem loadLines_errors (xs : List Str) : ∀ (cfg : RDCFG) (now : Str), now ≠ [] →
    (∃ sec, mapGet cfg.m now = some sec) →
    (loadLines cfg now xs).err = none
      ∨ (loadLines cfg now xs).err = some "section name is null"
      ∨ (loadLines cfg now xs).err = some "repeat section name"
      ∨ (loadLines cfg now xs).err = some "key already exists" := by
  induction xs with
  | nil => intro cfg now _ _; left; simp [loadLines]
  | cons x xs ih =>
    intro cfg now hnow hsec
    cases hh : headerOf x with
    | some tmp =>
      by_cases h1 : tmp = []
      · right; left
        rw [loadLines_step, hh]
        simp [h1]
      · by_cases h2 : now = tmp
        · subst h2
          right; right; left
          rw [loadLines_header_repeat _ _ _ _ hh h1]
        · rw [loadLines_header_new _ _ _ _ _ hh h1 h2]
          exact ih _ _ h1 ⟨_, by rw [mapGet_addSection, if_pos rfl]⟩
    | none =>
      cases ha : assignOf x with
      | none =>
        have e : loadLines cfg now (x :: xs) = loadLines cfg now xs := by
          rw [loadLines_step, hh]; simp only [ha]
        rw [e]
        exact ih _ _ hnow hsec
      | some kv =>
        obtain ⟨k1, v1⟩ := kv
        have hkeep := set_keeps_section cfg now k1 v1 now hnow hsec
        rcases set_cases cfg now k1 v1 hnow with ⟨h3, _⟩ | ⟨sec, w1, h3, h4, e⟩ | ⟨sec, h3, h4, e⟩
        · obtain ⟨sec, hsec⟩ := hsec
          rw [hsec] at h3
          exact absurd h3 (by simp)
        · right; right; right
          rw [loadLines_assign_err _ _ _ _ _ _ _ _ hh ha e]
        · rw [e] at hkeep
          rw [loadLines_assign_ok _ _ _ _ _ _ _ hh ha e]
          exact ih _ _ hnow hkeep

/-- Lines without a header: every assignment line of a run without error is
stored in the current section. -/
theorem loadLines_assign_stored (xs : List Str) : ∀ (cfg : RDCFG) (now : Str), now ≠ [] →
    (∀ y ∈ xs, headerOf y = none) → (loadLines cfg now xs).err = none →
    ∀ y ∈ xs, ∀ k v, assignOf y = some (k, v) →
      (loadLines cfg now xs).cfg.value? now k = some v := by
  induction xs with
  | nil => intro _ _ _ _ _ y hy; simp at hy
  | cons x xs ih =>
    intro cfg now hnow hnh hok y hy k v hyk
    have hh := hnh x (List.mem_cons_self _ _)
    have hnh2 : ∀ y ∈ xs, headerOf y = none := fun y hy => hnh y (List.mem_cons_of_mem _ hy)
    cases ha : assignOf x with
    | none =>
      have e : loadLines cfg now (x :: xs) = loadLines cfg now xs := by
        rw [loadLines_step, hh]; simp only [ha]
      rw [e] at hok ⊢
      rcases List.mem_cons.mp hy with rfl | hy
      · rw [ha] at hyk; exact absurd hyk (by simp)
      · exact ih _ _ hnow hnh2 hok y hy k v hyk
    | some kv =>
      obtain ⟨k1, v1⟩ := kv
      rcases hs : cfg.set now k1 v1 with ⟨cfg1, _ | err⟩
      · rw [loadLines_assign_ok _ _ _ _ _ _ _ hh ha hs] at hok ⊢
        rcases List.mem_cons.mp hy with rfl | hy
        · rw [ha] at hyk
          simp only [Option.some.injEq, Prod.mk.injEq] at hyk
          obtain ⟨rfl, rfl⟩ := hyk
          exact (loadLines_noHeader xs cfg1 now hnow hnh2).2 _ _ _
            (set_ok_value cfg now k1 v1 hnow cfg1 hs)
        · exact ih _ _ hnow hnh2 hok y hy k v hyk
      · rw [loadLines_assign_err _ _ _ _ _ _ _ _ hh ha hs] at hok
        exact absurd hok (by simp)

theorem addSection_names (cfg : RDCFG) (n : Str) (h : NamesMatch cfg) :
    NamesMatch (cfg.addSection n) := by
  intro p hp
  rcases mem_mapSet _ _ _ p hp with rfl | hp
  · rfl
  · exact h p hp

theorem set_names (cfg : RDCFG) (s k v : Str) (h : NamesMatch cfg) :
    NamesMatch (cfg.set s k v).1 := by
  have key : ∀ s1 : Str, s1 ≠ [] → NamesMatch (cfg.set s1 k v).1 := by
    intro s1 hs
    rcases set_cases cfg s1 k v hs with ⟨_, e⟩ | ⟨sec, w1, h1, h2, e⟩ | ⟨sec, h1, h2, e⟩
    · rw [e]; exact h
    · rw [e]
      intro p hp
      rcases mem_mapSet _ _ _ p hp with rfl | hp
      · exact h _ (mapGet_mem _ _ _ h1)
      · exact h p hp
    · rw [e]
      intro p hp
      rcases mem_mapSet _ _ _ p hp with rfl | hp
      · exact h (s1, sec) (mapGet_mem _ _ _ h1)
      · exact h p hp
  by_cases hs : s = []
  · subst hs
    rw [set_nil]
    exact key _ (by decide)
  · exact key s hs

theorem loadRun_names (cfg : RDCFG) (buf : Str) (h : NamesMatch cfg) :
    NamesMatch (loadRun cfg buf).cfg := by
  unfold loadRun
  exact loadLines_preserves NamesMatch _
    (fun cfg x n _ _ _ hc => addSection_names cfg n hc)
    (fun cfg s x k v _ _ _ _ hc => set_names cfg s k v hc)
    _ _ (by decide) (addSection_names cfg _ h)

theorem loadRun_default_section (cfg : RDCFG) (buf : Str) :
    ∃ sec, mapGet (loadRun cfg buf).cfg.m RDCFG_DEFAULT_SECTION_NAME = some sec := by
  unfold loadRun
  exact loadLines_preserves
    (fun c => ∃ sec, mapGet c.m RDCFG_DEFAULT_SECTION_NAME = some sec) _
    (fun cfg x n _ _ _ hc => addSection_keeps_section cfg n _ hc)
    (fun cfg s x k v _ _ _ hs hc => set_keeps_section cfg s k v _ hs hc)
    _ _ (by decide) ⟨_, by rw [mapGet_addSection, if_pos rfl]⟩

theorem Index_bound (line : Str) (c : Char) (h : Index line c ≥ 0) :
    (Index line c).toNat + 1 ≤ line.length := by
  unfold Index at h ⊢
  by_cases hc : c ∈ line
  · rw [if_pos hc, Int.toNat_ofNat]
    exact List.indexOf_lt_length.mpr hc
  · rw [if_neg hc] at h
    exact absurd h (by decide)

theorem Get_err_of_section (cfg : RDCFG) (s k : Str) (sec : Section)
    (h : mapGet cfg.m (if s = [] then RDCFG_DEFAULT_SECTION_NAME else s) = some sec) :
    (cfg.Get s k).2 = none ∨ (cfg.Get s k).2 = some "could not find value by key" := by
  unfold RDCFG.Get RDCFG.getSection Section.get
  simp only [h]
  cases mapGet sec.m k with
  | none => right; rfl
  | some w => left; rfl

/-- C11. `section.set` is atomic: on a key that is present it returns "key
already exists" and the store is unchanged; on an absent key it succeeds, `get`
of that key then returns the value, every other key reads as before and the
name is kept; so a second `set` of a key just inserted always fails. -/
theorem C11_section_set_atomic (s : Section) (k v : Str) :
    (∀ w, mapGet s.m k = some w → s.set k v = (s, some "key already exists"))
      ∧ (mapGet s.m k = none →
          (s.set k v).2 = none ∧ (s.set k v).1.get k = (v, none)
            ∧ (∀ k2, k2 ≠ k → (s.set k v).1.get k2 = s.get k2)
            ∧ (s.set k v).1.name = s.name)
      ∧ ((s.set k v).2 = none → ∀ v2, ((s.set k v).1.set k v2)
          = ((s.set k v).1, some "key already exists")) := by
  refine ⟨?_, ?_, ?_⟩
  · intro w hw
    simp [Section.set, hw]
  · intro hn
    refine ⟨by simp [Section.set, hn], by simp [Section.set, Section.get, hn, mapGet_mapSet],
      ?_, by simp [Section.set, hn]⟩
    intro k2 hk2
    simp [Section.set, Section.get, hn, mapGet_mapSet, hk2]
  · intro hok v2
    cases hn : mapGet s.m k with
    | some w => simp [Section.set, hn] at hok
    | none => simp [Section.set, hn, mapGet_mapSet]

/-- C12. The default section always exists after loading: for every buffer the
store under the default sentinel is present after `loadCfg`, whether it
succeeds or not, so `Get("", k)` and `GetDefault(k)` never fail with "specified
section not found"; the one-line buffer made of a newline loads to the default
section alone. -/
theorem C12_default_section_exists (cfg : RDCFG) (buf : Str) :
    (∃ sec, mapGet (cfg.loadCfg buf).1.m RDCFG_DEFAULT_SECTION_NAME = some sec)
      ∧ (∀ k, ((cfg.loadCfg buf).1.Get [] k).2 ≠ some "specified section not found"
          ∧ ((cfg.loadCfg buf).1.GetDefault k).2 ≠ some "specified section not found")
      ∧ RDCFG.loadCfg { m := [] } ['\n']
          = ({ m := [([' '], { name := [' '], m := [] })] }, none) := by
  have h := loadRun_default_section cfg buf
  refine ⟨h, ?_, by decide⟩
  intro k
  have hget : ((cfg.loadCfg buf).1.Get [] k).2 ≠ some "specified section not found" := by
    obtain ⟨sec, hsec⟩ := h
    rcases Get_err_of_section (cfg.loadCfg buf).1 [] k sec hsec with h1 | h1 <;>
      rw [h1] <;> decide
  exact ⟨hget, hget⟩

/-- C14. Every store has a name matching its key: after any sequence of
`addSection`, `set` and `loadCfg` calls on a document that starts empty
(whether a `loadCfg` succeeds or fails), every entry `(n, s)` of the section
map has `s.name = n`. -/
theorem C14_names_match_keys (cs : List Call) : ∀ p ∈ (runCalls cs).m, p.2.name = p.1 := by
  have key : ∀ (cs : List Call) (cfg : RDCFG), NamesMatch cfg →
      NamesMatch (cs.foldl Call.apply cfg) := by
    intro cs
    induction cs with
    | nil => intro cfg h; exact h
    | cons c cs ih =>
      intro cfg h
      rw [List.foldl_cons]
      apply ih
      cases c with
      | addSection n => exact addSection_names cfg n h
      | set s k v => exact set_names cfg s k v h
      | loadCfg buf => exact loadRun_names cfg buf h
  exact key cs { m := [] } (fun p hp => by simp at hp)

theorem C14_names_match_keys_witness :
    (['b'], newSection ['b'])
        ∈ (runCalls [Call.addSection ['a'], Call.set ['a'] ['k'] ['v'],
            Call.loadCfg "x=1\n[b]\n[b]\n".toList]).m
      ∧ (newSection ['b']).name = ['b'] :=
  ⟨by decide,
    C14_names_match_keys [Call.addSection ['a'], Call.set ['a'] ['k'] ['v'],
      Call.loadCfg "x=1\n[b]\n[b]\n".toList] (['b'], newSection ['b']) (by decide)⟩

/-- C15. Loading is total and fails only with the format errors: for every
buffer the fuel of the scan is enough, a position returned by `Index` keeps the
slices `line[:pos]` and `line[pos+1:]` within bounds, and the result of
`loadCfg` is success or one of "section name is null", "repeat section name",
"key already exists"; "specified section not found" is never returned. -/
theorem C15_load_total (cfg : RDCFG) (buf : Str) :
    ((cfg.loadCfg buf).2 = none
        ∨ (cfg.loadCfg buf).2 = some "section name is null"
        ∨ (cfg.loadCfg buf).2 = some "repeat section name"
        ∨ (cfg.loadCfg buf).2 = some "key already exists")
      ∧ (cfg.loadCfg buf).2 ≠ some "specified section not found"
      ∧ (∀ line : Str, Index line '=' ≥ 0 →
          (Index line '=').toNat ≤ line.length ∧ (Index line '=').toNat + 1 ≤ line.length)
      ∧ (∀ n, (Replace buf).length ≤ n →
          findAllAux re n (Replace buf) = FindAllString re (Replace buf)) := by
  have h : (loadRun cfg buf).err = none
      ∨ (loadRun cfg buf).err = some "section name is null"
      ∨ (loadRun cfg buf).err = some "repeat section name"
      ∨ (loadRun cfg buf).err = some "key already exists" := by
    unfold loadRun
    exact loadLines_errors _ _ _ (by decide) ⟨_, by rw [mapGet_addSection, if_pos rfl]⟩
  refine ⟨h, ?_, ?_, ?_⟩
  · show (loadRun cfg buf).err ≠ _
    rcases h with h | h | h | h <;> rw [h] <;> decide
  · intro line hl
    have := Index_bound line '=' hl
    exact ⟨by omega, this⟩
  · intro n hn
    exact findAllAux_fuel re n _ _ hn (by simp)

/-- C16. The sample input loads without error; `GetDefault("ip")` returns
"127.0.0.1", `Get("broker", "listen_port")` returns "7777", `Get("broker",
"missing")` fails with "could not find value by key" and `Get("nosuch", "x")`
fails with "specified section not found". -/
theorem C16_sample_input :
    (RDCFG.loadCfg { m := [] }
        "# default\nip = 127.0.0.1\nport=1234\n\n[broker]\nlisten_port = 7777\ntime = 10\n".toList).2
        = none
      ∧ (RDCFG.loadCfg { m := [] }
        "# default\nip = 127.0.0.1\nport=1234\n\n[broker]\nlisten_port = 7777\ntime = 10\n".toList).1.GetDefault
          "ip".toList = ("127.0.0.1".toList, none)
      ∧ (RDCFG.loadCfg { m := [] }
        "# default\nip = 127.0.0.1\nport=1234\n\n[broker]\nlisten_port = 7777\ntime = 10\n".toList).1.Get
          "broker".toList "listen_port".toList = ("7777".toList, none)
      ∧ (RDCFG.loadCfg { m := [] }
        "# default\nip = 127.0.0.1\nport=1234\n\n[broker]\nlisten_port = 7777\ntime = 10\n".toList).1.Get
          "broker".toList "missing".toList = ([], some "could not find value by key")
      ∧ (RDCFG.loadCfg { m := [] }
        "# default\nip = 127.0.0.1\nport=1234\n\n[broker]\nlisten_port = 7777\ntime = 10\n".toList).1.Get
          "nosuch".toList "x".toList = ([], some "specified section not found") := by
  decide

theorem headerOf_no_space (buf x n : Str) (hx : x ∈ FindAllString re (Replace buf))
    (h : headerOf x = some n) : ' ' ∉ n := by
  obtain ⟨l, rfl, hnl, hsp, _⟩ := mem_lines buf x hx
  exact fun hc => hsp (headerOf_chars l n hnl h _ hc)

/-- A value of the store `n` survives a run over lines whose headers do not
name `n`, whether the run ends with an error or not. -/
theorem loadLines_keeps (n k v : Str) (xs : List Str) (cfg : RDCFG) (now : Str)
    (hnow : now ≠ []) (hx : ∀ y ∈ xs, headerOf y ≠ some n)
    (h : cfg.value? n k = some v) : (loadLines cfg now xs).cfg.value? n k = some v :=
  loadLines_preserves (fun c => c.value? n k = some v) xs
    (fun c x m hxm hh _ hc => by
      show (c.addSection m).value? n k = some v
      rw [value?_addSection, if_neg]
      · exact hc
      · intro he
        exact hx x hxm (by rw [hh, he]))
    (fun c s x k1 v1 _ _ _ hs hc => set_keeps c s k1 v1 n k v hs hc)
    cfg now hnow h

theorem addSection_clean (cfg : RDCFG) (n : Str) (h : CleanDoc cfg) :
    CleanDoc (cfg.addSection n) := by
  intro p hp
  rcases mem_mapSet _ _ _ p hp with rfl | hp
  · intro q hq
    simp [newSection] at hq
  · exact h p hp

theorem set_clean (cfg : RDCFG) (s k v : Str) (hs : s ≠ []) (h : CleanDoc cfg)
    (hk : ' ' ∉ k ∧ '\n' ∉ k) (hv : ' ' ∉ v ∧ '\n' ∉ v ∧ v ≠ []) :
    CleanDoc (cfg.set s k v).1 := by
  rcases set_cases cfg s k v hs with ⟨_, e⟩ | ⟨sec, w1, h1, h2, e⟩ | ⟨sec, h1, h2, e⟩
  · rw [e]; exact h
  · rw [e]
    intro p hp
    rcases mem_mapSet _ _ _ p hp with rfl | hp
    · exact h (s, sec) (mapGet_mem _ _ _ h1)
    · exact h p hp
  · rw [e]
    intro p hp
    rcases mem_mapSet _ _ _ p hp with rfl | hp
    · intro q hq
      rcases mem_mapSet _ _ _ q hq with rfl | hq
      · exact ⟨hk.1, hk.2, hv.1, hv.2.1, hv.2.2⟩
      · exact h (s, sec) (mapGet_mem _ _ _ h1) q hq
    · exact h p hp

theorem loadRun_clean (cfg : RDCFG) (buf : Str) (h : CleanDoc cfg) :
    CleanDoc (loadRun cfg buf).cfg := by
  unfold loadRun
  refine loadLines_preserves CleanDoc _
    (fun c x n _ _ _ hc => addSection_clean c n hc) ?_ _ _ (by decide)
    (addSection_clean cfg _ h)
  intro c s x k v hx _ ha hs hc
  obtain ⟨l, rfl, hnl, hsp, hshape⟩ := mem_lines buf x hx
  obtain ⟨c1, c2, c3⟩ := assignOf_chars l k v hnl hshape ha
  exact set_clean c s k v hs hc
    ⟨fun hm => hsp (c1 _ hm), fun hm => hnl (c1 _ hm)⟩
    ⟨fun hm => hsp (c2 _ hm), fun hm => hnl (c2 _ hm), c3⟩

theorem loadRun_section_names (buf : Str) :
    ∀ s, (∃ sec, mapGet (loadRun { m := [] } buf).cfg.m s = some sec) →
      s = RDCFG_DEFAULT_SECTION_NAME ∨ (s ≠ [] ∧ ' ' ∉ s) := by
  unfold loadRun
  refine loadLines_preserves
    (fun c => ∀ s, (∃ sec, mapGet c.m s = some sec) →
      s = RDCFG_DEFAULT_SECTION_NAME ∨ (s ≠ [] ∧ ' ' ∉ s)) _ ?_ ?_ _ _ (by decide) ?_
  · intro c x n hx hh hn hc s hs
    rw [mapGet_addSection] at hs
    by_cases h1 : s = n
    · right
      rw [h1]
      exact ⟨hn, headerOf_no_space buf x n hx hh⟩
    · rw [if_neg h1] at hs
      exact hc s hs
  · intro c s x k v _ _ _ hs hc s2 h2
    exact hc s2 (set_no_new_section c s k v s2 hs h2)
  · intro s hs
    rw [mapGet_addSection] at hs
    by_cases h1 : s = RDCFG_DEFAULT_SECTION_NAME
    · left; exact h1
    · rw [if_neg h1] at hs
      obtain ⟨sec, hsec⟩ := hs
      simp [mapGet] at hsec

/-- C13. The default sentinel differs from every section name a header can
give: the name a header line contributes has no space, so it is not the
sentinel and `addSection` of it leaves the store under the sentinel alone;
after loading into a fresh document every registered name is the sentinel or
is non-empty and without space; and after a load without error every
assignment extracted before the first header is returned by `GetDefault`. -/
theorem C13_sentinel_distinct (cfg : RDCFG) (buf : Str) :
    (∀ x ∈ FindAllString re (Replace buf), ∀ n, headerOf x = some n →
        ' ' ∉ n ∧ n ≠ RDCFG_DEFAULT_SECTION_NAME
          ∧ ∀ c : RDCFG, mapGet (c.addSection n).m RDCFG_DEFAULT_SECTION_NAME
              = mapGet c.m RDCFG_DEFAULT_SECTION_NAME)
      ∧ (∀ s sec, mapGet (RDCFG.loadCfg { m := [] } buf).1.m s = some sec →
          s = RDCFG_DEFAULT_SECTION_NAME ∨ (s ≠ [] ∧ ' ' ∉ s))
      ∧ (∀ pre post y k v, FindAllString re (Replace buf) = pre ++ post →
          (∀ z ∈ pre, headerOf z = none) → (cfg.loadCfg buf).2 = none →
          y ∈ pre → assignOf y = some (k, v) →
          (cfg.loadCfg buf).1.GetDefault k = (v, none)) := by
  have hne : ∀ x ∈ FindAllString re (Replace buf), ∀ n, headerOf x = some n →
      n ≠ RDCFG_DEFAULT_SECTION_NAME := by
    intro x hx n hh he
    exact headerOf_no_space buf x n hx hh (by rw [he]; simp [RDCFG_DEFAULT_SECTION_NAME])
  refine ⟨?_, ?_, ?_⟩
  · intro x hx n hh
    refine ⟨headerOf_no_space buf x n hx hh, hne x hx n hh, fun c => ?_⟩
    rw [mapGet_addSection, if_neg (Ne.symm (hne x hx n hh))]
  · intro s sec hs
    exact loadRun_section_names buf s ⟨sec, hs⟩
  · intro pre post y k v hlines hpre hok hy hyk
    have hdef : RDCFG_DEFAULT_SECTION_NAME ≠ [] := by decide
    have hok1 : (loadRun cfg buf).err = none := hok
    show (loadRun cfg buf).cfg.Get [] k = (v, none)
    unfold loadRun at hok1 ⊢
    simp only at hok1 ⊢
    rw [hlines] at hok1 ⊢
    have hpre_ok : (loadLines (cfg.addSection RDCFG_DEFAULT_SECTION_NAME)
        RDCFG_DEFAULT_SECTION_NAME pre).err = none := by
      cases he : (loadLines (cfg.addSection RDCFG_DEFAULT_SECTION_NAME)
          RDCFG_DEFAULT_SECTION_NAME pre).err with
      | none => rfl
      | some e =>
        rw [loadLines_append_err _ _ _ _ e he, he] at hok1
        exact absurd hok1 (by simp)
    have hval := loadLines_assign_stored pre _ _ hdef hpre hpre_ok y hy k v hyk
    have hnow := (loadLines_noHeader pre (cfg.addSection RDCFG_DEFAULT_SECTION_NAME)
      RDCFG_DEFAULT_SECTION_NAME hdef hpre).1
    rw [loadLines_append_ok _ _ _ _ hpre_ok, Get_nil]
    apply Get_of_value _ _ _ _ hdef
    apply loadLines_keeps _ _ _ _ _ _ (by rw [hnow]; exact hdef) _ hval
    intro z hz hh
    exact hne z (by rw [hlines]; exact List.mem_append_right _ hz) _ hh rfl

/-- C18. The first error decides the outcome: if `p` is made of whole lines and
`loadCfg(p)` fails with an error, `loadCfg(p ++ q)` fails with the same error
(and leaves the same document); the lines extracted from `p ++ q` are those
extracted from `p` followed by those extracted from `q`; and every extracted
line holds exactly one newline, at its end. -/
theorem C18_first_error_decides (cfg : RDCFG) (p q : Str) (hp : EndsNL p) :
    (∀ e, (cfg.loadCfg p).2 = some e → cfg.loadCfg (p ++ q) = cfg.loadCfg p)
      ∧ FindAllString re (Replace (p ++ q))
          = FindAllString re (Replace p) ++ FindAllString re (Replace q)
      ∧ (∀ x ∈ FindAllString re (Replace (p ++ q)), ∃ l, x = l ++ ['\n'] ∧ '\n' ∉ l) := by
  refine ⟨?_, ?_, ?_⟩
  · intro e he
    unfold RDCFG.loadCfg
    rw [loadRun_append_err cfg p q hp e he]
  · rw [Replace_append, FindAllString_append _ _ (EndsNL_Replace p hp)]
  · intro x hx
    obtain ⟨l, h1, h2, _, _⟩ := mem_lines _ x hx
    exact ⟨l, h1, h2⟩

theorem C18_first_error_decides_witness :
    EndsNL "a=1\n[]\n".toList
      ∧ (RDCFG.loadCfg { m := [] } "a=1\n[]\n".toList).2 = some "section name is null"
      ∧ RDCFG.loadCfg { m := [] } ("a=1\n[]\n".toList ++ "[b]\nc=2\n".toList)
          = RDCFG.loadCfg { m := [] } "a=1\n[]\n".toList
      ∧ FindAllString re (Replace ("a=1\n[]\n".toList ++ "[b]\nc=2\n".toList))
          = FindAllString re (Replace "a=1\n[]\n".toList)
            ++ FindAllString re (Replace "[b]\nc=2\n".toList) :=
  have h1 : EndsNL "a=1\n[]\n".toList := Or.inr ⟨"a=1\n[]".toList, by decide⟩
  have h2 := C18_first_error_decides { m := [] } "a=1\n[]\n".toList "[b]\nc=2\n".toList h1
  ⟨h1, by decide, h2.1 "section name is null" (by decide), h2.2.1⟩

/-- C19. After `loadCfg` on a freshly constructed document, every key and every
value stored in every section holds no space and no newline, and every stored
value is non-empty; the assignment `a=` with nothing after the `=` is not
stored. -/
theorem C19_stored_strings_clean (buf : Str) :
    (∀ p ∈ (RDCFG.loadCfg { m := [] } buf).1.m, ∀ q ∈ p.2.m,
        ' ' ∉ q.1 ∧ '\n' ∉ q.1 ∧ ' ' ∉ q.2 ∧ '\n' ∉ q.2 ∧ q.2 ≠ [])
      ∧ RDCFG.loadCfg { m := [] } "a=\n".toList
          = ({ m := [([' '], { name := [' '], m := [] })] }, none) :=
  ⟨loadRun_clean { m := [] } buf (fun p hp => by simp at hp), by decide⟩

theorem headerOf_wrapped (n : Str) (i j : Nat) (hn : ValidName n) :
    headerOf (List.replicate (i + 1) '[' ++ n ++ List.replicate (j + 1) ']' ++ ['\n'])
      = some n := by
  obtain ⟨hn0, _, hnl, h1, h2, h3, h4⟩ := hn
  have hnoNL : '\n' ∉ List.replicate (i + 1) '[' ++ n ++ List.replicate (j + 1) ']' := by
    simp [List.mem_replicate, hnl]
  have hT := Trim_wrapped (List.replicate (i + 1) '[') n (List.replicate (j + 1) ']') hn0
    (fun c hc => Or.inl (List.eq_of_mem_replicate hc))
    (fun c hc => Or.inr (List.eq_of_mem_replicate hc)) h1 h2 h3 h4
  have hp : HasPrefix (List.replicate (i + 1) '[' ++ n ++ List.replicate (j + 1) ']') ['[']
      = true :=
    (HasPrefix_singleton _ _).mpr ⟨List.replicate i '[' ++ n ++ List.replicate (j + 1) ']',
      by simp [List.replicate_succ]⟩
  have hs : HasSuffix (List.replicate (i + 1) '[' ++ n ++ List.replicate (j + 1) ']') [']']
      = true :=
    (HasSuffix_singleton _ _).mpr ⟨List.replicate (i + 1) '[' ++ n ++ List.replicate j ']',
      by rw [List.replicate_succ' j]; simp⟩
  have hc : HasPrefix (List.replicate (i + 1) '[' ++ n ++ List.replicate (j + 1) ']' ++ ['\n'])
      ['#'] = false := by
    simp [HasPrefix, List.replicate_succ, List.isPrefixOf]
  unfold headerOf
  rw [TrimRight_of_noNL _ hnoNL]
  simp only [hc, hp, hs, Bool.false_eq_true, if_false, Bool.and_self, if_true]
  exact congrArg some hT

theorem lines_wrapped (n : Str) (i j : Nat) (hn : ValidName n) :
    FindAllString re
        (Replace (List.replicate (i + 1) '[' ++ n ++ List.replicate (j + 1) ']' ++ ['\n']))
      = [List.replicate (i + 1) '[' ++ n ++ List.replicate (j + 1) ']' ++ ['\n']] := by
  have e : Replace (List.replicate (i + 1) '[' ++ n ++ List.replicate (j + 1) ']' ++ ['\n'])
      = List.replicate (i + 1) '[' ++ n ++ List.replicate (j + 1) ']' ++ ['\n'] := by
    apply Replace_of_no_space
    simp [List.mem_replicate, hn.2.1]
  have e2 : List.replicate (i + 1) '[' ++ n ++ List.replicate (j + 1) ']' ++ ['\n']
      = '[' :: (List.replicate i '[' ++ n ++ List.replicate j ']') ++ [']'] ++ ['\n'] ++ [] := by
    rw [List.replicate_succ' j]
    simp [List.replicate_succ]
  rw [e]
  conv_lhs => rw [e2]
  rw [FindAllString_header _ _ (by simp [List.mem_replicate, hn.2.2.1]), FindAllString_nil]
  rw [List.replicate_succ' j]
  simp [List.replicate_succ]

/-- C20. A header's section name is the header line with all leading and
trailing brackets removed: for a name `n` (non-empty, no space, no newline, no
bracket at either end) and counts `i, j ≥ 1`, loading the one-line buffer of
`i` opening brackets, `n`, `j` closing brackets and the newline succeeds and
does exactly what registering the default section and then the section `n`
does, so the store found under `n` is the new store named `n`; `[a]` followed
by `[[a]]` fails with "repeat section name" and `[[]]` with "section name is
null". -/
theorem C20_all_brackets_trimmed (cfg : RDCFG) (n : Str) (i j : Nat) (hn : ValidName n)
    (hi : 1 ≤ i) (hj : 1 ≤ j) :
    cfg.loadCfg (List.replicate i '[' ++ n ++ List.replicate j ']' ++ ['\n'])
        = ((cfg.addSection RDCFG_DEFAULT_SECTION_NAME).addSection n, none)
      ∧ mapGet (cfg.loadCfg (List.replicate i '[' ++ n ++ List.replicate j ']' ++ ['\n'])).1.m n
        = some (newSection n)
      ∧ (RDCFG.loadCfg { m := [] } "[a]\n[[a]]\n".toList).2 = some "repeat section name"
      ∧ (RDCFG.loadCfg { m := [] } "[[]]\n".toList).2 = some "section name is null" := by
  obtain ⟨i1, rfl⟩ : ∃ i1, i = i1 + 1 := ⟨i - 1, by omega⟩
  obtain ⟨j1, rfl⟩ : ∃ j1, j = j1 + 1 := ⟨j - 1, by omega⟩
  have hdef : RDCFG_DEFAULT_SECTION_NAME ≠ n := by
    intro h
    exact hn.2.1 (by rw [← h]; simp [RDCFG_DEFAULT_SECTION_NAME])
  have hrun : cfg.loadCfg (List.replicate (i1 + 1) '[' ++ n ++ List.replicate (j1 + 1) ']'
      ++ ['\n']) = ((cfg.addSection RDCFG_DEFAULT_SECTION_NAME).addSection n, none) := by
    unfold RDCFG.loadCfg loadRun
    simp only
    rw [lines_wrapped n i1 j1 hn,
      loadLines_header_new _ _ _ _ _ (headerOf_wrapped n i1 j1 hn) hn.1 hdef]
    simp [loadLines]
  refine ⟨hrun, ?_, by decide, by decide⟩
  rw [hrun, mapGet_addSection, if_pos rfl]

theorem C20_all_brackets_trimmed_witness :
    ValidName "a".toList ∧ 1 ≤ 2 ∧ 1 ≤ 3
      ∧ RDCFG.loadCfg { m := [] } "[[a]]]\n".toList
        = ({ m := [([' '], { name := [' '], m := [] }), (['a'], { name := ['a'], m := [] })] },
            none) :=
  have h0 : ValidName "a".toList := by unfold ValidName; decide
  ⟨h0, by decide, by decide,
    (C20_all_brackets_trimmed { m := [] } "a".toList 2 3 h0 (by decide) (by decide)).1⟩

/-! ## Decimal numerals -/

theorem foldl_digits (ds : Str) : ∀ acc : Nat,
    ds.foldl (fun n c => n * 10 + (c.toNat - '0'.toNat)) acc
      = acc * 10 ^ ds.length
        + Nat.ofDigits 10 (ds.reverse.map (fun c => c.toNat - '0'.toNat)) := by
  induction ds with
  | nil => intro acc; simp
  | cons d ds ih =>
    intro acc
    rw [List.foldl_cons, ih, List.reverse_cons, List.map_append, Nat.ofDigits_append]
    simp only [List.map_cons, List.map_nil, Nat.ofDigits_singleton, List.length_map,
      List.length_reverse, List.length_cons]
    ring

theorem digitsValue_eq (ds : Str) :
    digitsValue ds = Nat.ofDigits 10 (ds.reverse.map (fun c => c.toNat - '0'.toNat)) := by
  unfold digitsValue
  rw [foldl_digits]
  simp

theorem stripSign_cases (s : Str) :
    (s = '+' :: stripSign s ∧ s.head? ≠ some '-')
      ∨ (s = '-' :: stripSign s ∧ s.head? = some '-')
      ∨ (stripSign s = s ∧ s.head? ≠ some '+' ∧ s.head? ≠ some '-') := by
  cases s with
  | nil => right; right; simp [stripSign]
  | cons c t =>
    by_cases h1 : c = '+'
    · subst h1; left; exact ⟨rfl, by simp⟩
    · by_cases h2 : c = '-'
      · subst h2; right; left; exact ⟨rfl, rfl⟩
      · right; right
        refine ⟨?_, by simpa using h1, by simpa using h2⟩
        unfold stripSign
        split
        · rename_i heq; simp only [List.cons.injEq] at heq; exact absurd heq.1 h1
        · rename_i heq; simp only [List.cons.injEq] at heq; exact absurd heq.1 h2
        · rfl

theorem stripSign_digits (ds : Str) (h0 : ds ≠ []) (hd : ∀ c ∈ ds, c.isDigit = true) :
    stripSign ds = ds ∧ ds.head? ≠ some '-' := by
  cases ds with
  | nil => exact absurd rfl h0
  | cons c t =>
    have hc := hd c (List.mem_cons_self _ _)
    rcases stripSign_cases (c :: t) with ⟨h, _⟩ | ⟨h, _⟩ | ⟨h, _, h3⟩
    · simp only [List.cons.injEq] at h
      rw [h.1] at hc
      exact absurd hc (by decide)
    · simp only [List.cons.injEq] at h
      rw [h.1] at hc
      exact absurd hc (by decide)
    · exact ⟨h, h3⟩

/-- The model of `Atoi` accepts exactly the decimal numerals that fit the type. -/
theorem Atoi_ok_iff (intSize : Nat) (s : Str) (n : Int) :
    Atoi intSize s = (n, none)
      ↔ IsDecimal s n ∧ -(2 ^ (intSize - 1) : Int) ≤ n ∧ n ≤ (2 ^ (intSize - 1) : Int) - 1 := by
  constructor
  · intro h
    unfold Atoi at h
    simp only at h
    by_cases h1 : stripSign s = [] ∨ (stripSign s).all Char.isDigit = false
    · rw [if_pos h1] at h
      simp at h
    · rw [if_neg h1] at h
      have h0 : stripSign s ≠ [] := fun e => h1 (Or.inl e)
      have hd : ∀ c ∈ stripSign s, c.isDigit = true := by
        intro c hc
        by_contra hcd
        apply h1
        right
        rw [List.all_eq_false]
        exact ⟨c, hc, hcd⟩
      split_ifs at h with h2 h3 h4 h5 h6
      · simp at h
      · simp at h
      · simp only [Prod.mk.injEq, and_true] at h
        subst h
        refine ⟨⟨stripSign s, h0, hd, Or.inr ⟨?_, by rw [digitsValue_eq]⟩⟩, by omega, by omega⟩
        rcases stripSign_cases s with ⟨_, h7⟩ | ⟨h7, _⟩ | ⟨_, _, h7⟩
        · exact absurd h2 h7
        · exact h7
        · exact absurd h2 h7
      · simp at h
      · simp at h
      · simp only [Prod.mk.injEq, and_true] at h
        subst h
        refine ⟨⟨stripSign s, h0, hd, Or.inl ⟨?_, by rw [digitsValue_eq]⟩⟩, by omega, by omega⟩
        rcases stripSign_cases s with ⟨h7, _⟩ | ⟨_, h7⟩ | ⟨h7, _, _⟩
        · right; exact h7
        · exact absurd h7 h2
        · left; exact h7.symm
  · rintro ⟨⟨ds, h0, hd, hs⟩, hlo, hhi⟩
    have hall : ¬ (ds = [] ∨ ds.all Char.isDigit = false) := by
      rintro (e | e)
      · exact h0 e
      · rw [List.all_eq_false] at e
        obtain ⟨c, hc, hcd⟩ := e
        exact hcd (hd c hc)
    have key : ∀ (s1 : Str) (m : Int), stripSign s1 = ds →
        (if s1.head? = some '-' then -(digitsValue ds : Int) else (digitsValue ds : Int)) = m →
        -(2 ^ (intSize - 1) : Int) ≤ m → m ≤ (2 ^ (intSize - 1) : Int) - 1 →
        Atoi intSize s1 = (m, none) := by
      intro s1 m e1 e2 lo hi
      unfold Atoi
      simp only [e1, if_neg hall, e2]
      rw [if_neg (by omega), if_neg (by omega)]
    rcases hs with ⟨hs | hs, hn⟩ | ⟨hs, hn⟩
    · subst hs
      obtain ⟨e1, e2⟩ := stripSign_digits s h0 hd
      exact key s n e1 (by rw [if_neg e2, digitsValue_eq, hn]) hlo hhi
    · subst hs
      exact key _ n rfl
        (by rw [if_neg (show ¬ ('+' :: ds).head? = some '-' by simp), digitsValue_eq, hn])
        hlo hhi
    · subst hs
      exact key _ n rfl
        (by rw [if_pos (show ('-' :: ds).head? = some '-' from rfl), digitsValue_eq, hn])
        hlo hhi

theorem Atoi_err_zero (intSize : Nat) (cfg : RDCFG) (s k sv : Str)
    (hg : cfg.Get s k = (sv, none)) (h : (Atoi intSize sv).2 ≠ none) :
    (cfg.GetInt intSize s k).1 = 0 ∧ (cfg.GetInt intSize s k).2 = (Atoi intSize sv).2 := by
  unfold RDCFG.GetInt
  rw [hg]
  simp only
  rcases ha : Atoi intSize sv with ⟨v, _ | e⟩
  · rw [ha] at h; exact absurd rfl h
  · simp

/-- C17. `GetInt(s, k)` calls `Get(s, k)` and parses the result in base 10: if
`Get` fails, `GetInt` returns 0 and the same error; if `Get` returns an optional
sign followed by one or more decimal digits whose value `n` fits the `int`
type, `GetInt` returns `n` ("1234" gives 1234); for any other string ("12.5")
`GetInt` returns 0 and an error. -/
theorem C17_GetInt (intSize : Nat) (cfg : RDCFG) (s k : Str) :
    (∀ e, (cfg.Get s k).2 = some e → cfg.GetInt intSize s k = (0, some e))
      ∧ (∀ sv n, cfg.Get s k = (sv, none) → IsDecimal sv n →
          -(2 ^ (intSize - 1) : Int) ≤ n → n ≤ (2 ^ (intSize - 1) : Int) - 1 →
          cfg.GetInt intSize s k = (n, none))
      ∧ (∀ sv, cfg.Get s k = (sv, none) →
          (¬ ∃ n, IsDecimal sv n ∧ -(2 ^ (intSize - 1) : Int) ≤ n
            ∧ n ≤ (2 ^ (intSize - 1) : Int) - 1) →
          (cfg.GetInt intSize s k).1 = 0 ∧ (cfg.GetInt intSize s k).2 ≠ none)
      ∧ RDCFG.GetInt 64 (RDCFG.loadCfg { m := [] } "port=1234\nratio=12.5\n".toList).1 []
          "port".toList = (1234, none)
      ∧ RDCFG.GetInt 64 (RDCFG.loadCfg { m := [] } "port=1234\nratio=12.5\n".toList).1 []
          "ratio".toList = (0, some "invalid syntax") := by
  refine ⟨?_, ?_, ?_, ?_, ?_⟩
  · intro e he
    unfold RDCFG.GetInt
    rcases hg : cfg.Get s k with ⟨sv, _ | e1⟩
    · rw [hg] at he; simp at he
    · rw [hg] at he
      simp only [Option.some.injEq] at he
      subst he
      rfl
  · intro sv n hg hdec hlo hhi
    have ha := (Atoi_ok_iff intSize sv n).mpr ⟨hdec, hlo, hhi⟩
    unfold RDCFG.GetInt
    rw [hg]
    simp only [ha]
  · intro sv hg hnot
    have herr : (Atoi intSize sv).2 ≠ none := by
      intro hnone
      apply hnot
      exact ⟨(Atoi intSize sv).1, (Atoi_ok_iff intSize sv _).mp (Prod.ext rfl hnone)⟩
    obtain ⟨h1, h2⟩ := Atoi_err_zero intSize cfg s k sv hg herr
    exact ⟨h1, by rw [h2]; exact herr⟩
  · decide
  · decide

end Rdcfg
